import Mathlib

set_option maxHeartbeats 1000000

/-!
Verification development for `lastfm.py`, a poller that publishes the
currently playing Last.fm track into a README file kept in a git
repository.  Strings are modelled as `List Char` (Python `str`), bytes as
`List Nat`, and the effectful pieces (`update_repo`, the `main` loop body)
as pure functions from explicit world inputs to the list of performed
effects.
-/

-- ===== Python string helpers =====

/-- Python whitespace characters, as used by `str.strip` / `str.rstrip`. -/
def pyWs (c : Char) : Bool :=
  c == ' ' || c == '\t' || c == '\n' || c == '\r' || c == '\x0b' || c == '\x0c'

/-- `str.rstrip()` with no arguments: drop trailing whitespace. -/
def rstripL (s : List Char) : List Char := (s.reverse.dropWhile pyWs).reverse

/-- `str.lstrip()` with no arguments: drop leading whitespace. -/
def lstripL (s : List Char) : List Char := s.dropWhile pyWs

/-- `str.strip()` with no arguments. -/
def stripL (s : List Char) : List Char := lstripL (rstripL s)

/-- The string contains no newline. -/
def noNl (s : List Char) : Prop := '\n' ∉ s

/-- The string contains no backslash. -/
def noBS (s : List Char) : Prop := '\\' ∉ s

instance (s : List Char) : Decidable (noNl s) := by unfold noNl; infer_instance

instance (s : List Char) : Decidable (noBS s) := by unfold noBS; infer_instance

-- ===== Line structure =====

/-- Split a string at each `'\n'`; always returns at least one (possibly
empty) line, exactly like viewing the string as newline-separated lines. -/
def splitOnNl : List Char → List (List Char)
  | [] => [[]]
  | c :: cs =>
    if c = '\n' then [] :: splitOnNl cs
    else
      match splitOnNl cs with
      | [] => [[c]]
      | l :: ls => (c :: l) :: ls

/-- Join lines with `'\n'` separators (inverse of `splitOnNl`). -/
def joinNl : List (List Char) → List Char
  | [] => []
  | [l] => l
  | l :: ls => l ++ '\n' :: joinNl ls

/-- Join lines putting `'\n'` after every line (used to state results). -/
def lineJoin : List (List Char) → List Char
  | [] => []
  | l :: ls => l ++ '\n' :: lineJoin ls

-- ===== The block pattern of update_repo =====

/-- The fixed marker the regex looks for:
`r"(> \*\*Now Playing:\*\*.*\n>.*\n>.*(?:\n>.*)*)"` begins with this
literal text. -/
def marker : List Char := ("> **Now Playing:**").data

/-- Does the line begin with the continuation prefix `'>'`
(the `\n>.*` parts of the pattern)? -/
def startsGt : List Char → Bool
  | [] => false
  | c :: _ => c == '>'

/-- Split a line at the first occurrence of `marker`: returns
`(before, fromMarker)` with the line equal to `before ++ fromMarker`,
`marker` a prefix of `fromMarker`, and no occurrence inside `before`. -/
def splitAtMarker (l : List Char) : Option (List Char × List Char) :=
  if marker.isPrefixOf l then some ([], l)
  else
    match l with
    | [] => none
    | c :: cs => (splitAtMarker cs).map (fun p => (c :: p.1, p.2))

/-- Attempt the regex match with the marker inside line `l` and the
following lines `rest`.  The pattern requires the rest of the marker line
(`.*`), then two lines beginning with `'>'` (`\n>.*\n>.*`), then extends
greedily over further `'>'`-lines (`(?:\n>.*)*`).  Returns
`(before, matchedText, remainingLines)`. -/
def tryMatchLine (l : List Char) (rest : List (List Char)) :
    Option (List Char × List Char × List (List Char)) :=
  match splitAtMarker l with
  | none => none
  | some (pre, fromM) =>
    match rest with
    | l1 :: l2 :: rest2 =>
      if startsGt l1 && startsGt l2 then
        let ext := rest2.takeWhile startsGt
        let rem := rest2.dropWhile startsGt
        some (pre, joinNl (fromM :: l1 :: l2 :: ext), rem)
      else none
    | _ => none

/-- `re.search(pattern, ·)` viewed on the line decomposition: is there a
match anywhere? -/
def searchL : List (List Char) → Bool
  | [] => false
  | l :: rest => (tryMatchLine l rest).isSome || searchL rest

-- ===== Replacement-template expansion (Python re.sub semantics) =====

/-- Octal digit test. -/
def isOct (c : Char) : Bool := c.isDigit && c.toNat < 56

/-- Handle one backslash escape of a `re.sub` replacement template, given
the text following the backslash.  Returns the produced characters and
how many input characters were consumed, or `none` for template errors
(bad escape / invalid group reference).  `g` is the text of group 1,
which in the pattern of `update_repo` spans the whole match (as does `\g<0>`).
Follows `re` template rules: `\\`, character escapes, `\g<n>` and
`\number` group references, octal escapes (`\0..`, or three octal
digits); unknown escapes of ASCII letters are errors. -/
def escStep (g : List Char) : List Char → Option (List Char × Nat)
  | [] => none
  | e :: rest' =>
    if e = '\\' then some (['\\'], 1)
    else if e = 'n' then some (['\n'], 1)
    else if e = 't' then some (['\t'], 1)
    else if e = 'r' then some (['\r'], 1)
    else if e = 'g' then
      match rest' with
      | '<' :: d :: '>' :: _ =>
        if d = '0' ∨ d = '1' then some (g, 4) else none
      | _ => none
    else if e = '0' then
      match rest' with
      | d1 :: d2 :: _ =>
        if isOct d1 && isOct d2 then
          some ([Char.ofNat ((d1.toNat - 48) * 8 + (d2.toNat - 48))], 3)
        else if isOct d1 then some ([Char.ofNat (d1.toNat - 48)], 2)
        else some (['\x00'], 1)
      | [d1] =>
        if isOct d1 then some ([Char.ofNat (d1.toNat - 48)], 2)
        else some (['\x00'], 1)
      | [] => some (['\x00'], 1)
    else if e.isDigit then
      match rest' with
      | d2 :: d3 :: _ =>
        if isOct e && isOct d2 && isOct d3 then
          let v := (e.toNat - 48) * 64 + (d2.toNat - 48) * 8 + (d3.toNat - 48)
          if v < 256 then some ([Char.ofNat v], 3) else none
        else if d2.isDigit then none  -- two-digit group number; only group 1 exists
        else if e = '1' then some (g, 1)
        else none
      | [d2] =>
        if d2.isDigit then none
        else if e = '1' then some (g, 1)
        else none
      | [] => if e = '1' then some (g, 1) else none
    else if e.isAlpha then none  -- bad escape
    else some (['\\', e], 1)

/-- Template expansion loop with explicit fuel (any fuel at least the
template length computes the result). -/
def expandTemplateF (g : List Char) : Nat → List Char → Option (List Char)
  | _, [] => some []
  | 0, _ :: _ => none
  | n + 1, c :: rest =>
    if c = '\\' then
      match escStep g rest with
      | none => none
      | some (out, k) => (expandTemplateF g n (rest.drop k)).map (fun o => out ++ o)
    else (expandTemplateF g n rest).map (fun o => c :: o)

/-- Expand a `re.sub` replacement template against group text `g`. -/
def expandTemplate (g t : List Char) : Option (List Char) :=
  expandTemplateF g t.length t

/-- `re.sub(pattern, T, ·)` on the line decomposition, with explicit fuel
(any fuel at least the number of lines computes the result; `subL` below
instantiates it).  Replaces every non-overlapping match, left to right,
with the template expansion; a template error (`none` from
`expandTemplate`) is the exception `re.error` propagating out of
`re.sub`. -/
def subLinesF (T : List Char) : Nat → List (List Char) → Option (List Char)
  | _, [] => some []
  | 0, _ :: _ => none
  | n + 1, l :: rest =>
    match tryMatchLine l rest with
    | some (pre, m, rem) =>
      match expandTemplate m T with
      | none => none
      | some e =>
        match rem with
        | [] => some (pre ++ e)
        | _ :: _ => (subLinesF T n rem).map (fun o => pre ++ e ++ '\n' :: o)
    | none =>
      match rest with
      | [] => some l
      | _ :: _ => (subLinesF T n rest).map (fun o => l ++ '\n' :: o)

/-- `re.sub(pattern, T, ·)` on the line decomposition. -/
def subL (T : List Char) (L : List (List Char)) : Option (List Char) :=
  subLinesF T L.length L

-- ===== update_repo's text transformation (lines 70-83 of lastfm.py) =====

/-- The text-level part of `update_repo`: read content, build the new
block, search for the pattern; on a hit run `re.sub` with the *stripped*
block as replacement template, otherwise append the (unstripped) block
after `content.rstrip()` and one blank line.  `none` models an exception
escaping `re.sub` (caught by the except clauses of `update_repo`). -/
def update_content (content new_block : List Char) : Option (List Char) :=
  if searchL (splitOnNl content) then
    subL (stripL new_block) (splitOnNl content)
  else
    some (rstripL content ++ '\n' :: '\n' :: new_block)

-- ===== MD5 (hashlib.md5(...).hexdigest()) =====

/-- 2^32, the word modulus of MD5. -/
def m32 : Nat := 4294967296

def add32 (a b : Nat) : Nat := (a + b) % m32

def not32 (a : Nat) : Nat := a ^^^ 4294967295

def rotl32 (x s : Nat) : Nat := ((x <<< s) ||| (x >>> (32 - s))) % m32

def md5F (b c d : Nat) : Nat := (b &&& c) ||| (not32 b &&& d)

def md5G (b c d : Nat) : Nat := (b &&& d) ||| (c &&& not32 d)

def md5H (b c d : Nat) : Nat := (b ^^^ c) ^^^ d

def md5I (b c d : Nat) : Nat := c ^^^ (b ||| not32 d)

/-- The 64 MD5 round constants `floor(abs(sin(i+1)) * 2^32)`. -/
def md5K : List Nat :=
  [0xd76aa478, 0xe8c7b756, 0x242070db, 0xc1bdceee,
   0xf57c0faf, 0x4787c62a, 0xa8304613, 0xfd469501,
   0x698098d8, 0x8b44f7af, 0xffff5bb1, 0x895cd7be,
   0x6b901122, 0xfd987193, 0xa679438e, 0x49b40821,
   0xf61e2562, 0xc040b340, 0x265e5a51, 0xe9b6c7aa,
   0xd62f105d, 0x02441453, 0xd8a1e681, 0xe7d3fbc8,
   0x21e1cde6, 0xc33707d6, 0xf4d50d87, 0x455a14ed,
   0xa9e3e905, 0xfcefa3f8, 0x676f02d9, 0x8d2a4c8a,
   0xfffa3942, 0x8771f681, 0x6d9d6122, 0xfde5380c,
   0xa4beea44, 0x4bdecfa9, 0xf6bb4b60, 0xbebfbc70,
   0x289b7ec6, 0xeaa127fa, 0xd4ef3085, 0x04881d05,
   0xd9d4d039, 0xe6db99e5, 0x1fa27cf8, 0xc4ac5665,
   0xf4292244, 0x432aff97, 0xab9423a7, 0xfc93a039,
   0x655b59c3, 0x8f0ccc92, 0xffeff47d, 0x85845dd1,
   0x6fa87e4f, 0xfe2ce6e0, 0xa3014314, 0x4e0811a1,
   0xf7537e82, 0xbd3af235, 0x2ad7d2bb, 0xeb86d391]

/-- The 64 MD5 per-round left-rotation amounts. -/
def md5S : List Nat :=
  [7, 12, 17, 22, 7, 12, 17, 22, 7, 12, 17, 22, 7, 12, 17, 22,
   5, 9, 14, 20, 5, 9, 14, 20, 5, 9, 14, 20, 5, 9, 14, 20,
   4, 11, 16, 23, 4, 11, 16, 23, 4, 11, 16, 23, 4, 11, 16, 23,
   6, 10, 15, 21, 6, 10, 15, 21, 6, 10, 15, 21, 6, 10, 15, 21]

/-- One MD5 round `i` (0..63) over state `(a, b, c, d)`;
`M j` is the `j`-th 32-bit little-endian word of the current chunk. -/
def md5Step (M : Nat → Nat) (st : Nat × Nat × Nat × Nat) (i : Nat) :
    Nat × Nat × Nat × Nat :=
  let (a, b, c, d) := st
  let fg : Nat × Nat :=
    if i < 16 then (md5F b c d, i)
    else if i < 32 then (md5G b c d, (5 * i + 1) % 16)
    else if i < 48 then (md5H b c d, (3 * i + 5) % 16)
    else (md5I b c d, (7 * i) % 16)
  let tmp := add32 (add32 a fg.1) (add32 (md5K.getD i 0) (M fg.2))
  (d, add32 b (rotl32 tmp (md5S.getD i 0)), b, c)

/-- The `j`-th little-endian 32-bit word of a 64-byte chunk. -/
def chunkWord (chunk : List Nat) (j : Nat) : Nat :=
  chunk.getD (4 * j) 0 + (chunk.getD (4 * j + 1) 0) <<< 8 +
    (chunk.getD (4 * j + 2) 0) <<< 16 + (chunk.getD (4 * j + 3) 0) <<< 24

/-- Process one 64-byte chunk. -/
def md5Chunk (st : Nat × Nat × Nat × Nat) (chunk : List Nat) :
    Nat × Nat × Nat × Nat :=
  let (a0, b0, c0, d0) := st
  let r := (List.range 64).foldl (md5Step (chunkWord chunk)) (a0, b0, c0, d0)
  (add32 a0 r.1, add32 b0 r.2.1, add32 c0 r.2.2.1, add32 d0 r.2.2.2)

/-- MD5 padding: `0x80`, zeros to 56 mod 64, the 8-byte little-endian bit
length. -/
def md5Pad (msg : List Nat) : List Nat :=
  let l := msg.length
  let z := (119 - l % 64) % 64
  msg ++ 0x80 :: List.replicate z 0 ++
    (List.range 8).map (fun k => (((l * 8) % 18446744073709551616) >>> (8 * k)) % 256)

/-- Cut a byte string into 64-byte chunks. -/
def chunks64 : List Nat → List (List Nat)
  | [] => []
  | c :: rest => (c :: rest).take 64 :: chunks64 ((c :: rest).drop 64)
termination_by l => l.length
decreasing_by simp only [List.length_drop, List.length_cons]; omega

def hexDigit (n : Nat) : Char := if n < 10 then Char.ofNat (48 + n) else Char.ofNat (87 + n)

def byteHex (b : Nat) : List Char := [hexDigit (b / 16), hexDigit (b % 16)]

def wordLEBytes (w : Nat) : List Nat :=
  [w % 256, (w >>> 8) % 256, (w >>> 16) % 256, (w >>> 24) % 256]

/-- `hashlib.md5(msg).hexdigest()` over a byte string. -/
def md5hex (msg : List Nat) : List Char :=
  let st := (chunks64 (md5Pad msg)).foldl md5Chunk
    (0x67452301, 0xefcdab89, 0x98badcfe, 0x10325476)
  ((wordLEBytes st.1 ++ wordLEBytes st.2.1 ++ wordLEBytes st.2.2.1 ++
    wordLEBytes st.2.2.2).map byteHex).flatten

/-- Python `str.encode()`: UTF-8 encoding of one character. -/
def utf8Char (c : Char) : List Nat :=
  let n := c.toNat
  if n < 128 then [n]
  else if n < 2048 then [192 ||| (n >>> 6), 128 ||| (n &&& 63)]
  else if n < 65536 then
    [224 ||| (n >>> 12), 128 ||| ((n >>> 6) &&& 63), 128 ||| (n &&& 63)]
  else
    [240 ||| (n >>> 18), 128 ||| ((n >>> 12) &&& 63),
     128 ||| ((n >>> 6) &&& 63), 128 ||| (n &&& 63)]

/-- Python `str.encode()`: UTF-8 encoding of a string. -/
def utf8Encode (s : List Char) : List Nat := (s.map utf8Char).flatten

-- ===== Track records and the fingerprint (get_track_hash) =====

/-- The normalized track record built by `get_current_track`. -/
structure Track where
  artist : List Char
  name : List Char
  album : List Char
  url : List Char

deriving DecidableEq

/-- The f-string joining artist, name and album with a colon separator
whose UTF-8 encoding is hashed by `get_track_hash`. -/
def pyJoined (t : Track) : List Char :=
  t.artist ++ ':' :: t.name ++ ':' :: t.album

/-- `get_track_hash(track)`:
`hashlib.md5(f"{artist}:{name}:{album}".encode()).hexdigest() if track
else None`. -/
def get_track_hash : Option Track → Option (List Char)
  | none => none
  | some t => some (md5hex (utf8Encode (pyJoined t)))

-- ===== create_now_playing_block =====

/-- First line of the rendered block:
the marker, then name, a dash, artist, and album in brackets. -/
def blockLine1 (t : Track) : List Char :=
  ("> **Now Playing:** ").data ++ t.name ++ (" - ").data ++ t.artist ++
    (" [").data ++ t.album ++ ("]").data

/-- Second line of the rendered block: `> ` (callout prefix and a space). -/
def blockLine2 : List Char := ("> ").data

/-- Third line of the rendered block:
the callout with the Last.fm link built from url, then the timestamp. -/
def blockLine3 (t : Track) (now : List Char) : List Char :=
  ("> [Last.fm](").data ++ t.url ++ (") | Updated: ").data ++ now

/-- `create_now_playing_block(track)`, with the formatted current time
(`datetime.now(indian_tz).strftime(...)`) passed in as `now`: the
three-line f-string
```
> **Now Playing:** {name} - {artist} [{album}]
>
> [Last.fm]({url}) | Updated: {now}
``` -/
def create_now_playing_block (t : Track) (now : List Char) : List Char :=
  blockLine1 t ++ '\n' :: blockLine2 ++ '\n' :: blockLine3 t now

-- ===== get_current_track =====

/-- JSON-like values for the remote response body.  The leaves this
program reads (`#text`, `name`, `url`) are strings in the Last.fm API,
so string leaves suffice. -/
inductive Jv where
  | str (s : List Char)
  | arr (elems : List Jv)
  | obj (fields : List (List Char × Jv))

/-- Dictionary lookup; `none` models the `KeyError` raised by a missing
key. -/
def jLookup (fields : List (List Char × Jv)) (k : List Char) : Option Jv :=
  match fields with
  | [] => none
  | (k', v) :: rest => if k' = k then some v else jLookup rest k

/-- `x[k]` for a string key: succeeds only on a dict containing the key
(`KeyError`/`TypeError` raise otherwise). -/
def jGet : Jv → List Char → Option Jv
  | Jv.obj fs, k => jLookup fs k
  | _, _ => none

/-- `x[0]`: succeeds only on a nonempty list (`IndexError`/`TypeError`
otherwise; note `track[0]` on other shapes also ends in an exception
once a string key is applied to the result). -/
def jFirst : Jv → Option Jv
  | Jv.arr (x :: _) => some x
  | _ => none

def jStr : Jv → Option (List Char)
  | Jv.str s => some s
  | _ => none

/-- The field extraction
`data["recenttracks"]["track"][0]` plus the four record fields. -/
def parseTrack (data : Jv) : Option Track := do
  let rt ← jGet data (("recenttracks").data)
  let tr ← jGet rt (("track").data)
  let t0 ← jFirst tr
  let artistObj ← jGet t0 (("artist").data)
  let artist ← jStr (← jLookupField artistObj)
  let name ← jStr (← jGet t0 (("name").data))
  let albumObj ← jGet t0 (("album").data)
  let album ← jStr (← jLookupField albumObj)
  let url ← jStr (← jGet t0 (("url").data))
  pure { artist := artist, name := name, album := album, url := url }
where
  jLookupField (o : Jv) : Option Jv := jGet o (("#text").data)

/-- One remote interaction outcome, as seen by `get_current_track`:
a network-level error, a non-2xx response (=> `raise_for_status` raises
`HTTPError`), an unparseable body (=> `response.json()` raises
`requests.exceptions.JSONDecodeError`), or a 2xx response with a JSON
body. -/
inductive Resp where
  | netError
  | httpError (code : Nat)
  | badJson
  | ok (body : Jv)

/-- What a call to `get_current_track` does: return a record, return
`None` (absent), or let an exception escape to `main`. -/
inductive FetchResult where
  | ok (t : Track)
  | absent
  | raised

/-- `get_current_track()`: the `try` block catches only
`requests.RequestException` (network errors, `HTTPError` from
`raise_for_status`, `JSONDecodeError`); `KeyError`/`IndexError`/
`TypeError` from the field accesses are not caught and propagate. -/
def get_current_track : Resp → FetchResult
  | Resp.netError => FetchResult.absent
  | Resp.httpError _ => FetchResult.absent
  | Resp.badJson => FetchResult.absent
  | Resp.ok body =>
    match parseTrack body with
    | some t => FetchResult.ok t
    | none => FetchResult.raised

/-- A 2xx body in the shape the Last.fm API actually returns: `artist`
and `album` are objects carrying their string under `#text`, while
`name` and `url` are plain strings. -/
def apiBody (artist name album url : List Char) : Jv :=
  Jv.obj [(("recenttracks").data,
    Jv.obj [(("track").data,
      Jv.arr [Jv.obj [
        (("artist").data, Jv.obj [(("#text").data, Jv.str artist)]),
        (("name").data, Jv.str name),
        (("album").data, Jv.obj [(("#text").data, Jv.str album)]),
        (("url").data, Jv.str url)]])])]

/-- Like `apiBody` but with the artist as a bare string: here
`track["artist"]["#text"]` raises `TypeError` (string indexed by
string), which the `except requests.RequestException` handler does not
catch. -/
def bareArtistBody (artist name album url : List Char) : Jv :=
  Jv.obj [(("recenttracks").data,
    Jv.obj [(("track").data,
      Jv.arr [Jv.obj [
        (("artist").data, Jv.str artist),
        (("name").data, Jv.str name),
        (("album").data, Jv.obj [(("#text").data, Jv.str album)]),
        (("url").data, Jv.str url)]])])]

-- ===== update_repo and the main loop body =====

/-- Externally visible effects of one `update_repo` call, in order. -/
inductive Effect where
  | fileWrite (content : List Char)
  | gitAdd
  | gitCommit
  | gitPush

deriving DecidableEq

/-- The world an `update_repo` call runs against: what reading the README
yields (`none` = the `open`/`read` raises), and whether each git
subcommand succeeds (`false` = it raises `GitCommandError`). -/
structure RepoWorld where
  readRes : Option (List Char)
  gitAddOk : Bool
  gitCommitOk : Bool
  gitPushOk : Bool

/-- `update_repo(track, repo, readme_path)` as the list of effects it
performs.  Every exception inside is caught by its
`except git.GitCommandError` / `except Exception` handlers, so the call
always returns; a failure at any step stops the remaining steps. -/
def update_repo (t : Track) (now : List Char) (w : RepoWorld) : List Effect :=
  match w.readRes with
  | none => []
  | some content =>
    match update_content content (create_now_playing_block t now) with
    | none => []
    | some newC =>
      if newC = content then []
      else
        Effect.fileWrite newC ::
          (if w.gitAddOk then
            Effect.gitAdd ::
              (if w.gitCommitOk then
                Effect.gitCommit :: (if w.gitPushOk then [Effect.gitPush] else [])
              else [])
          else [])

/-- One iteration of the while-True loop of `main` (lines 120-132): fetch,
compare fingerprints, maybe publish, and update `last_track_hash`.
Returns the new `last_track_hash` and the effects performed.  Note the
source assigns `last_track_hash = current_track_hash` unconditionally
after `update_repo` returns, successful or not. -/
def cycle (lastHash : Option (List Char)) (fetched : Option Track)
    (now : List Char) (w : RepoWorld) : Option (List Char) × List Effect :=
  match fetched with
  | none => (lastHash, [])
  | some t =>
    let h := get_track_hash (some t)
    if h ≠ lastHash then (h, update_repo t now w)
    else (lastHash, [])

-- ===== Lemmas: the marker and splitAtMarker =====

/-- No occurrence of `marker` begins anywhere inside `p`. -/
def noMarkerIn (p : List Char) : Prop :=
  ∀ n, marker.isPrefixOf (p.drop n) = false

-- ===== Lemmas: tryMatchLine and searchL =====

/-- The data the match attempt reads from the following lines: whether a
first and a second following line exist and begin with `'>'`. -/
def firstTwoGt (L : List (List Char)) : Option Bool × Option Bool :=
  (L.head?.map startsGt, (L.drop 1).head?.map startsGt)

-- ===== Concrete inputs for witnesses and counterexamples =====

def w7_track : Track :=
  ⟨("The Artist").data, ("A Song").data, ("An Album").data, ("u1").data⟩

def w7_now : List Char := ("2024-05-05 10:00:00 IST").data

def w7_doc : List Char := ("# Profile\n\nSome text here.  ").data

def w9a : Track := ⟨("Ar").data, ("Na").data, ("Al").data, ("url-one").data⟩

def w9b : Track := ⟨("Ar").data, ("Na").data, ("Al").data, ("url-two").data⟩

def c4a : Track := ⟨("a:b").data, ("c").data, ("d").data, ("u").data⟩

def c4b : Track := ⟨("a").data, ("b:c").data, ("d").data, ("u").data⟩

def w4a : Track := ⟨("AA").data, ("NN").data, ("LL").data, ("u1").data⟩

def w4b : Track := ⟨("AA").data, ("NX").data, ("LL").data, ("u2").data⟩

def c1_track : Track := ⟨("A").data, ("B").data, ("C").data, ("U").data⟩

def c1_now : List Char := ("T").data

/-- A world where reading the README raises (e.g. the file is missing),
so the publish fails before any effect. -/
def c1_world : RepoWorld := ⟨none, true, true, true⟩

def c6_track : Track := ⟨("Art").data, ("Sng").data, ("Alb").data, ("u").data⟩

def c6_now : List Char := ("2024-01-01 00:00:00 IST").data

/-- A document that already carries exactly the freshly rendered block. -/
def c6_doc : List Char := create_now_playing_block c6_track c6_now

def c6_world : RepoWorld := ⟨some c6_doc, true, true, true⟩

def c5_doc : List Char := ("> **Now Playing:** x\n> y").data

def c5_track : Track := ⟨("A5").data, ("S5").data, ("L5").data, ("u5").data⟩

def c5_now : List Char := ("T5").data

def w5_line : List Char := ("> **Now Playing:** w\n").data

def c3_track : Track := ⟨("A3").data, ("S3").data, ("L3").data, ("u3").data⟩

def c3_now : List Char := ("T3").data

def c3_doc : List Char :=
  ("A\n> **Now Playing:** o1\n> a\n> b\nMID\n> **Now Playing:** o2\n> c\n> d\nZ").data

/-- What C3 predicts: only the first region replaced, the second region
(and everything else after the first region) byte-preserved. -/
def c3_claimed : List Char :=
  ("A\n").data ++ stripL (create_now_playing_block c3_track c3_now) ++
    ("\nMID\n> **Now Playing:** o2\n> c\n> d\nZ").data

/-- What the code actually produces: both regions replaced. -/
def c3_actual : List Char :=
  ("A\n").data ++ stripL (create_now_playing_block c3_track c3_now) ++
    ("\nMID\n").data ++ stripL (create_now_playing_block c3_track c3_now) ++
    ("\nZ").data

def c10_track : Track :=
  ⟨("A0").data, ("S\\g<0>x").data, ("L0").data, ("u0").data⟩

def c10_track2 : Track :=
  ⟨("A0").data, ("S\\qx").data, ("L0").data, ("u0").data⟩

def c10_now : List Char := ("T0").data

def c10_doc : List Char := ("x\n> **Now Playing:** old\n> a\n> b\ny").data

/-- The verbatim replacement the spec expects (block pasted literally). -/
def c10_verbatim : List Char :=
  ("x\n").data ++ stripL (create_now_playing_block c10_track c10_now) ++ ("\ny").data

def w3_track : Track := ⟨("A3w").data, ("S3w").data, ("L3w").data, ("u3w").data⟩

def w3_now : List Char := ("T3w").data

def w3T : List Char := stripL (create_now_playing_block w3_track w3_now)

-- ===== C8: patch idempotence =====

def c8_track : Track := ⟨("A8").data, ("S\\1x").data, ("L8").data, ("u8").data⟩

def c8_now : List Char := ("T8").data

def c8_doc : List Char := ("hi").data

/-- Result of the first patch application (append path). -/
def c8_doc2 : List Char :=
  rstripL c8_doc ++ '\n' :: '\n' :: create_now_playing_block c8_track c8_now

def w8_track : Track := ⟨("A8w").data, ("S8w").data, ("L8w").data, ("u8w").data⟩

def w8_now : List Char := ("2024-02-02 02:02:02 IST").data

def w8_doc : List Char := ("# P\n\n> **Now Playing:** old\n> \n> old2").data

/-- Result of the first application (replace path). -/
def w8_doc2 : List Char :=
  ("# P\n\n").data ++ create_now_playing_block w8_track w8_now

theorem expandTemplateF_fuel (g : List Char) :
    ∀ n m (t : List Char), t.length ≤ n → t.length ≤ m →
      expandTemplateF g n t = expandTemplateF g m t := by
  intro n
  induction n using Nat.strong_induction_on with
  | _ n ih =>
    intro m t hn hm
    match t with
    | [] => cases n <;> cases m <;> rfl
    | c :: rest =>
      match n, m with
      | 0, _ => simp at hn
      | _, 0 => simp at hm
      | n' + 1, m' + 1 =>
        simp only [expandTemplateF]
        by_cases hc : c = '\\'
        · simp only [hc, if_pos rfl]
          cases he : escStep g rest with
          | none => rfl
          | some p =>
            obtain ⟨out, k⟩ := p
            have hd : (rest.drop k).length ≤ rest.length := by
              rw [List.length_drop]; omega
            have h1 : (rest.drop k).length ≤ n' := by
              simp only [List.length_cons] at hn; omega
            have h2 : (rest.drop k).length ≤ m' := by
              simp only [List.length_cons] at hm; omega
            exact congrArg (Option.map fun o => out ++ o) (ih n' (by omega) m' _ h1 h2)
        · simp only [if_neg hc]
          have h1 : rest.length ≤ n' := by simp only [List.length_cons] at hn; omega
          have h2 : rest.length ≤ m' := by simp only [List.length_cons] at hm; omega
          exact congrArg (Option.map fun o => c :: o) (ih n' (by omega) m' _ h1 h2)

theorem expandTemplate_nil (g : List Char) : expandTemplate g [] = some [] := rfl

theorem expandTemplate_cons_plain {c : Char} (g : List Char) (rest : List Char)
    (hc : c ≠ '\\') :
    expandTemplate g (c :: rest) = (expandTemplate g rest).map (fun o => c :: o) := by
  unfold expandTemplate
  simp only [List.length_cons, expandTemplateF, if_neg hc]

-- ===== re.sub over the line decomposition =====

theorem length_dropWhile_le' (p : α → Bool) (l : List α) :
    (l.dropWhile p).length ≤ l.length := by
  induction l with
  | nil => simp [List.dropWhile]
  | cons a l ih =>
    by_cases h : p a
    · simp [List.dropWhile, h]; omega
    · simp [List.dropWhile, h]

theorem tryMatchLine_rem_length {l : List Char} {rest : List (List Char)}
    {pre m : List Char} {rem : List (List Char)}
    (h : tryMatchLine l rest = some (pre, m, rem)) :
    rem.length + 2 ≤ rest.length := by
  unfold tryMatchLine at h
  cases hs : splitAtMarker l with
  | none => rw [hs] at h; exact absurd h (by simp)
  | some p =>
    obtain ⟨pre', fromM⟩ := p
    rw [hs] at h
    match rest with
    | [] => exact absurd h (by simp)
    | [l1] => exact absurd h (by simp)
    | l1 :: l2 :: rest2 =>
      dsimp only at h
      by_cases hg : (startsGt l1 && startsGt l2) = true
      · rw [if_pos hg] at h
        simp only [Option.some.injEq, Prod.mk.injEq] at h
        obtain ⟨-, -, hrem⟩ := h
        have hd := length_dropWhile_le' startsGt rest2
        rw [← hrem]
        simp only [List.length_cons]
        omega
      · rw [if_neg hg] at h
        exact absurd h (by simp)

theorem subLinesF_fuel (T : List Char) :
    ∀ n m (L : List (List Char)), L.length ≤ n → L.length ≤ m →
      subLinesF T n L = subLinesF T m L := by
  intro n
  induction n using Nat.strong_induction_on with
  | _ n ih =>
    intro m L hn hm
    match L with
    | [] => cases n <;> cases m <;> rfl
    | l :: rest =>
      match n, m with
      | 0, _ => simp at hn
      | _, 0 => simp at hm
      | n' + 1, m' + 1 =>
        simp only [subLinesF]
        cases htm : tryMatchLine l rest with
        | none =>
          cases rest with
          | nil => rfl
          | cons r rs =>
            have h1 : (r :: rs).length ≤ n' := by
              simp only [List.length_cons] at hn ⊢; omega
            have h2 : (r :: rs).length ≤ m' := by
              simp only [List.length_cons] at hm ⊢; omega
            exact congrArg (Option.map fun o => l ++ '\n' :: o) (ih n' (by omega) m' _ h1 h2)
        | some p =>
          obtain ⟨pre, m2, rem⟩ := p
          dsimp only
          cases hex : expandTemplate m2 T with
          | none => rfl
          | some e =>
            cases rem with
            | nil => rfl
            | cons r rs =>
              have hlen := tryMatchLine_rem_length htm
              have h1 : (r :: rs).length ≤ n' := by
                simp only [List.length_cons] at hn hlen ⊢; omega
              have h2 : (r :: rs).length ≤ m' := by
                simp only [List.length_cons] at hm hlen ⊢; omega
              exact congrArg (Option.map fun o => pre ++ e ++ '\n' :: o)
                (ih n' (by omega) m' _ h1 h2)

theorem subL_nil (T : List Char) : subL T [] = some [] := rfl

theorem subL_cons_none {l : List Char} {rest : List (List Char)} (T : List Char)
    (h : tryMatchLine l rest = none) :
    subL T (l :: rest) =
      match rest with
      | [] => some l
      | _ :: _ => (subL T rest).map (fun o => l ++ '\n' :: o) := by
  unfold subL
  simp only [List.length_cons, subLinesF, h]
  cases rest with
  | nil => rfl
  | cons r rs =>
    rw [subLinesF_fuel T (r :: rs).length ((r :: rs).length + 1) (r :: rs) (le_refl _) (by omega)]

theorem subL_cons_some {l : List Char} {rest : List (List Char)}
    {pre m : List Char} {rem : List (List Char)} (T : List Char)
    (h : tryMatchLine l rest = some (pre, m, rem)) :
    subL T (l :: rest) =
      match expandTemplate m T with
      | none => none
      | some e =>
        match rem with
        | [] => some (pre ++ e)
        | _ :: _ => (subL T rem).map (fun o => pre ++ e ++ '\n' :: o) := by
  unfold subL
  simp only [List.length_cons, subLinesF, h]
  cases hex : expandTemplate m T with
  | none => rfl
  | some e =>
    cases rem with
    | nil => rfl
    | cons r rs =>
      have hlen := tryMatchLine_rem_length h
      rw [subLinesF_fuel T rest.length ((r :: rs).length) (r :: rs)
        (by simp only [List.length_cons] at hlen ⊢; omega) (le_refl _)]

theorem subL_singleton_none {l : List Char} (T : List Char)
    (h : tryMatchLine l [] = none) : subL T [l] = some l := by
  rw [subL_cons_none T h]

theorem subL_cons_none_cons {l q : List Char} {qs : List (List Char)}
    (T : List Char) (h : tryMatchLine l (q :: qs) = none) :
    subL T (l :: q :: qs) = (subL T (q :: qs)).map (fun o => l ++ '\n' :: o) := by
  rw [subL_cons_none T h]

theorem subL_cons_match_nil {l pre m : List Char} {rest : List (List Char)}
    {e : List Char} (T : List Char)
    (h : tryMatchLine l rest = some (pre, m, []))
    (hex : expandTemplate m T = some e) :
    subL T (l :: rest) = some (pre ++ e) := by
  rw [subL_cons_some T h, hex]

theorem subL_cons_match_err {l pre m : List Char} {rest rem : List (List Char)}
    (T : List Char) (h : tryMatchLine l rest = some (pre, m, rem))
    (hex : expandTemplate m T = none) :
    subL T (l :: rest) = none := by
  rw [subL_cons_some T h, hex]

theorem subL_cons_match_cons {l pre m e r : List Char}
    {rest rs : List (List Char)} (T : List Char)
    (h : tryMatchLine l rest = some (pre, m, r :: rs))
    (hex : expandTemplate m T = some e) :
    subL T (l :: rest) = (subL T (r :: rs)).map (fun o => pre ++ e ++ '\n' :: o) := by
  rw [subL_cons_some T h, hex]

-- ===== Lemmas: line splitting and joining =====

theorem splitOnNl_ne_nil (s : List Char) : splitOnNl s ≠ [] := by
  induction s with
  | nil => simp [splitOnNl]
  | cons c cs ih =>
    by_cases h : c = '\n'
    · simp [splitOnNl, h]
    · simp only [splitOnNl, if_neg h]
      cases hs : splitOnNl cs with
      | nil => simp
      | cons l ls => simp

theorem noNl_of_mem_splitOnNl {s : List Char} {l : List Char}
    (h : l ∈ splitOnNl s) : noNl l := by
  induction s generalizing l with
  | nil =>
    simp only [splitOnNl, List.mem_singleton] at h
    subst h; intro hc; simp at hc
  | cons c cs ih =>
    by_cases hc : c = '\n'
    · simp only [splitOnNl, if_pos hc, List.mem_cons] at h
      rcases h with h | h
      · subst h; intro hx; simp at hx
      · exact ih h
    · simp only [splitOnNl, if_neg hc] at h
      cases hs : splitOnNl cs with
      | nil => exact absurd hs (splitOnNl_ne_nil cs)
      | cons l0 ls =>
        rw [hs] at h
        simp only [List.mem_cons] at h
        rcases h with h | h
        · subst h
          intro hx
          rcases List.mem_cons.mp hx with h1 | h1
          · exact hc h1.symm
          · exact ih (by rw [hs]; exact List.mem_cons_self l0 ls) h1
        · exact ih (by rw [hs]; exact List.mem_cons_of_mem l0 h)

theorem splitOnNl_of_noNl {s : List Char} (h : noNl s) : splitOnNl s = [s] := by
  induction s with
  | nil => rfl
  | cons c cs ih =>
    have hc : c ≠ '\n' := fun hx => h (hx ▸ List.mem_cons_self c cs)
    have hcs : noNl cs := fun hx => h (List.mem_cons_of_mem c hx)
    simp only [splitOnNl, if_neg hc, ih hcs]

theorem splitOnNl_append_nl (A R : List Char) :
    splitOnNl (A ++ '\n' :: R) = splitOnNl A ++ splitOnNl R := by
  induction A with
  | nil => simp [splitOnNl]
  | cons c cs ih =>
    by_cases hc : c = '\n'
    · simp only [List.cons_append, splitOnNl, if_pos hc]
      exact congrArg (List.cons []) ih
    · simp only [List.cons_append, splitOnNl, if_neg hc, List.append_eq, ih]
      cases hs : splitOnNl cs with
      | nil => exact absurd hs (splitOnNl_ne_nil cs)
      | cons l ls => simp [hs]

theorem joinNl_splitOnNl (s : List Char) : joinNl (splitOnNl s) = s := by
  induction s with
  | nil => rfl
  | cons c cs ih =>
    by_cases hc : c = '\n'
    · simp only [splitOnNl, if_pos hc]
      cases hs : splitOnNl cs with
      | nil => exact absurd hs (splitOnNl_ne_nil cs)
      | cons l ls =>
        rw [hs] at ih
        subst hc
        simp only [joinNl, List.nil_append]
        rw [ih]
    · simp only [splitOnNl, if_neg hc]
      cases hs : splitOnNl cs with
      | nil => exact absurd hs (splitOnNl_ne_nil cs)
      | cons l ls =>
        rw [hs] at ih
        cases ls with
        | nil => simp only [joinNl] at ih ⊢; rw [ih]
        | cons l2 ls2 => simp only [joinNl] at ih ⊢; rw [List.cons_append, ih]

theorem splitOnNl_joinNl {L : List (List Char)} (hne : L ≠ [])
    (hnl : ∀ l ∈ L, noNl l) : splitOnNl (joinNl L) = L := by
  induction L with
  | nil => exact absurd rfl hne
  | cons l ls ih =>
    cases ls with
    | nil =>
      simp only [joinNl]
      exact splitOnNl_of_noNl (hnl l (by simp))
    | cons l2 ls2 =>
      have : joinNl (l :: l2 :: ls2) = l ++ '\n' :: joinNl (l2 :: ls2) := rfl
      rw [this, splitOnNl_append_nl, splitOnNl_of_noNl (hnl l (by simp)),
        ih (by simp) (fun x hx => hnl x (List.mem_cons_of_mem l hx))]
      rfl

theorem lineJoin_append (A B : List (List Char)) :
    lineJoin (A ++ B) = lineJoin A ++ lineJoin B := by
  induction A with
  | nil => rfl
  | cons l ls ih =>
    simp only [List.cons_append, lineJoin, List.append_eq]
    rw [ih]
    simp [List.append_assoc]

theorem joinNl_eq_lineJoin (L : List (List Char)) (x : List Char) :
    joinNl (L ++ [x]) = lineJoin L ++ x := by
  induction L with
  | nil => rfl
  | cons l ls ih =>
    cases ls with
    | nil => simp [joinNl, lineJoin]
    | cons l2 ls2 =>
      simp only [List.cons_append, joinNl, lineJoin, List.append_eq]
      rw [← List.cons_append, ih]
      simp [lineJoin, List.append_assoc]

theorem joinNl_cons_of_ne_nil {L : List (List Char)} (l : List Char) (h : L ≠ []) :
    joinNl (l :: L) = l ++ '\n' :: joinNl L := by
  cases L with
  | nil => exact absurd rfl h
  | cons a as => rfl

theorem marker_ne_nil : marker ≠ [] := by decide

theorem marker_length : marker.length = 18 := by decide

/-- `'>'` occurs in `marker` only at position 0. -/
theorem marker_drop_head {n : Nat} (hn : 0 < n) :
    (marker.drop n).head? ≠ some '>' := by
  by_cases h : n < 18
  · have hd : ∀ m, m < 18 → 0 < m → (marker.drop m).head? ≠ some '>' := by decide
    exact hd n h hn
  · rw [List.drop_eq_nil_of_le (by rw [marker_length]; omega)]
    simp

/-- A marker occurrence starting strictly before `x` inside `d ++ x`
cannot straddle the boundary when `x` itself begins with the marker:
it must lie entirely inside `d`. -/
theorem marker_no_cross {d x : List Char} (hd : d ≠ [])
    (hdx : marker <+: d ++ x) (hx : marker <+: x) : marker <+: d := by
  by_cases hlen : marker.length ≤ d.length
  · exact List.prefix_of_prefix_length_le hdx (List.prefix_append d x) hlen
  · exfalso
    push_neg at hlen
    have hdm : d <+: marker :=
      List.prefix_of_prefix_length_le (List.prefix_append d x) hdx (by omega)
    obtain ⟨q, hq⟩ := hdm
    have hql : q.length > 0 := by
      have := congrArg List.length hq
      simp only [List.length_append] at this
      omega
    have hqx : q <+: x := by
      have h2 : (d ++ q) <+: (d ++ x) := by rw [hq]; exact hdx
      exact (List.prefix_append_right_inj d).mp h2
    have hxh : x.head? = some '>' := by
      obtain ⟨t, ht⟩ := hx
      rw [← ht]
      have : marker = '>' :: marker.tail := by decide
      rw [this]
      rfl
    have hqh : q.head? = some '>' := by
      obtain ⟨t2, ht2⟩ := hqx
      cases q with
      | nil => simp at hql
      | cons qc qt =>
        rw [← ht2] at hxh
        simpa using hxh
    have hdrop : marker.drop d.length = q := by
      rw [← hq, List.drop_left]
    have hpos : 0 < d.length := List.length_pos.mpr hd
    exact marker_drop_head hpos (hdrop ▸ hqh)

theorem isPrefixOf_iff {a b : List Char} : a.isPrefixOf b = true ↔ a <+: b :=
  List.isPrefixOf_iff_prefix

theorem noMarkerIn_nil : noMarkerIn [] := by
  intro n
  rw [List.drop_nil]
  decide

theorem splitAtMarker_eq_some {l p s : List Char}
    (h : splitAtMarker l = some (p, s)) :
    l = p ++ s ∧ marker.isPrefixOf s = true ∧ noMarkerIn p := by
  induction l generalizing p s with
  | nil =>
    rw [splitAtMarker] at h
    simp only [show marker.isPrefixOf ([] : List Char) = false by decide] at h
    simp at h
  | cons c cs ih =>
    rw [splitAtMarker] at h
    by_cases hm : marker.isPrefixOf (c :: cs) = true
    · rw [if_pos hm] at h
      obtain ⟨hp, hs⟩ := Prod.mk.injEq .. ▸ Option.some.injEq .. ▸ h
      subst hp; subst hs
      exact ⟨rfl, hm, noMarkerIn_nil⟩
    · rw [if_neg hm] at h
      cases hsam : splitAtMarker cs with
      | none => rw [hsam] at h; simp at h
      | some p' =>
        obtain ⟨p2, s2⟩ := p'
        rw [hsam] at h
        have h' : some ((c :: p2, s2) : List Char × List Char) = some (p, s) := h
        obtain ⟨hp, hs⟩ := Prod.mk.injEq .. ▸ Option.some.injEq .. ▸ h'
        obtain ⟨ha, hb, hc⟩ := ih hsam
        subst hp; subst hs; subst ha
        refine ⟨rfl, hb, ?_⟩
        intro n
        cases n with
        | zero =>
          simp only [List.drop_zero]
          by_cases hx : marker.isPrefixOf (c :: p2) = true
          · exfalso
            have h1 : marker <+: (c :: p2) := isPrefixOf_iff.mp hx
            have h2 : marker <+: (c :: p2) ++ s2 :=
              h1.trans (List.prefix_append (c :: p2) s2)
            have h3 : marker.isPrefixOf ((c :: p2) ++ s2) = true :=
              isPrefixOf_iff.mpr h2
            rw [List.cons_append] at h3
            exact absurd h3 hm
          · simp only [Bool.not_eq_true] at hx
            exact hx
        | succ n' =>
          simp only [List.drop_succ_cons]
          exact hc n'

theorem splitAtMarker_append {p x : List Char} (hp : noMarkerIn p)
    (hx : marker.isPrefixOf x = true) : splitAtMarker (p ++ x) = some (p, x) := by
  induction p with
  | nil =>
    rw [List.nil_append, splitAtMarker.eq_def, if_pos hx]
  | cons c cs ih =>
    have hm : marker.isPrefixOf ((c :: cs) ++ x) = false := by
      cases hb : marker.isPrefixOf ((c :: cs) ++ x) with
      | false => rfl
      | true =>
        exfalso
        have hpref : marker <+: (c :: cs) ++ x := isPrefixOf_iff.mp hb
        have hxp : marker <+: x := isPrefixOf_iff.mp hx
        have hin : marker <+: (c :: cs) := marker_no_cross (by simp) hpref hxp
        have h0 := hp 0
        rw [List.drop_zero] at h0
        rw [isPrefixOf_iff.mpr hin] at h0
        exact absurd h0 (by decide)
    have heq : splitAtMarker ((c :: cs) ++ x) =
        if marker.isPrefixOf ((c :: cs) ++ x) then some ([], (c :: cs) ++ x)
        else (splitAtMarker (cs ++ x)).map (fun p => (c :: p.1, p.2)) := rfl
    have hne : ¬ (marker.isPrefixOf ((c :: cs) ++ x) = true) := by
      rw [List.cons_append] at hm ⊢
      rw [hm]
      simp
    rw [heq, if_neg hne]
    have hcs : noMarkerIn cs := by
      intro n
      have := hp (n + 1)
      simpa using this
    rw [ih hcs]
    rfl

theorem splitAtMarker_none_of {l : List Char} (h : noMarkerIn l) :
    splitAtMarker l = none := by
  induction l with
  | nil => decide
  | cons c cs ih =>
    have h0 := h 0
    rw [List.drop_zero] at h0
    have heq : splitAtMarker (c :: cs) =
        if marker.isPrefixOf (c :: cs) then some ([], c :: cs)
        else (splitAtMarker cs).map (fun p => (c :: p.1, p.2)) := rfl
    rw [heq, if_neg (by rw [h0]; simp)]
    rw [ih (fun n => by have := h (n + 1); simpa using this)]
    rfl

theorem splitAtMarker_eq_none {l : List Char} (h : splitAtMarker l = none) :
    noMarkerIn l := by
  induction l with
  | nil => exact noMarkerIn_nil
  | cons c cs ih =>
    rw [splitAtMarker] at h
    by_cases hm : marker.isPrefixOf (c :: cs) = true
    · rw [if_pos hm] at h; simp at h
    · rw [if_neg hm] at h
      cases hsam : splitAtMarker cs with
      | some p => rw [hsam] at h; simp at h
      | none =>
        have hcs := ih hsam
        intro n
        cases n with
        | zero =>
          simp only [List.drop_zero]
          simp only [Bool.not_eq_true] at hm
          exact hm
        | succ n' =>
          simp only [List.drop_succ_cons]
          exact hcs n'

theorem tryMatchLine_isSome_eq (l : List Char) (rest : List (List Char)) :
    (tryMatchLine l rest).isSome =
      ((splitAtMarker l).isSome && ((firstTwoGt rest).1.getD false) &&
        ((firstTwoGt rest).2.getD false)) := by
  unfold tryMatchLine firstTwoGt
  cases hs : splitAtMarker l with
  | none => simp
  | some p =>
    obtain ⟨pre, fromM⟩ := p
    match rest with
    | [] => simp
    | [l1] => simp
    | l1 :: l2 :: rest2 =>
      dsimp only
      by_cases hg : (startsGt l1 && startsGt l2) = true
      · rw [if_pos hg]
        simp only [List.head?_cons, List.drop_succ_cons, List.drop_zero,
          Option.map_some', Option.getD_some, Option.isSome_some, Bool.true_and]
        simp only [Bool.and_eq_true] at hg
        simp [hg.1, hg.2]
      · rw [if_neg hg]
        simp only [Bool.and_eq_true, not_and] at hg
        simp only [Option.isSome_none, List.head?_cons, List.drop_succ_cons,
          List.drop_zero, Option.map_some', Option.getD_some, Bool.true_and]
        cases h1 : startsGt l1 with
        | false => simp
        | true => simp [hg h1]

theorem tryMatchLine_isSome_congr {l : List Char} {rest rest' : List (List Char)}
    (h : firstTwoGt rest = firstTwoGt rest') :
    (tryMatchLine l rest).isSome = (tryMatchLine l rest').isSome := by
  rw [tryMatchLine_isSome_eq, tryMatchLine_isSome_eq, h]

theorem searchL_cons (l : List Char) (rest : List (List Char)) :
    searchL (l :: rest) = ((tryMatchLine l rest).isSome || searchL rest) := rfl

theorem searchL_append_right {M : List (List Char)} (L : List (List Char))
    (h : searchL M = true) : searchL (L ++ M) = true := by
  induction L with
  | nil => simpa using h
  | cons l ls ih =>
    rw [List.cons_append, searchL_cons, ih, Bool.or_true]

/-- Characterization of a successful search: some line contains the
marker and is followed by two `'>'`-lines. -/
theorem searchL_iff {L : List (List Char)} :
    searchL L = true ↔
      ∃ Y l a b t, L = Y ++ l :: a :: b :: t ∧ (splitAtMarker l).isSome = true ∧
        startsGt a = true ∧ startsGt b = true := by
  constructor
  · intro h
    induction L with
    | nil => simp [searchL] at h
    | cons l0 rest ih =>
      rw [searchL_cons, Bool.or_eq_true] at h
      rcases h with h | h
      · rw [tryMatchLine_isSome_eq] at h
        simp only [Bool.and_eq_true] at h
        obtain ⟨⟨hsm, h1⟩, h2⟩ := h
        match rest, h1, h2 with
        | a :: b :: t, h1, h2 =>
          refine ⟨[], l0, a, b, t, rfl, hsm, ?_, ?_⟩
          · simpa [firstTwoGt] using h1
          · simpa [firstTwoGt] using h2
        | [], h1, h2 => simp [firstTwoGt] at h1
        | [a], h1, h2 => simp [firstTwoGt] at h2
      · obtain ⟨Y, l, a, b, t, hL, hsm, ha, hb⟩ := ih h
        exact ⟨l0 :: Y, l, a, b, t, by rw [hL, List.cons_append], hsm, ha, hb⟩
  · rintro ⟨Y, l, a, b, t, hL, hsm, ha, hb⟩
    subst hL
    apply searchL_append_right
    rw [searchL_cons, Bool.or_eq_true]
    left
    rw [tryMatchLine_isSome_eq]
    simp [firstTwoGt, hsm, ha, hb]

theorem startsGt_append_left {b : List Char} (x : List Char) (hb : b ≠ []) :
    startsGt (b ++ x) = startsGt b := by
  cases b with
  | nil => exact absurd rfl hb
  | cons c cs => rfl

theorem startsGt_ne_nil {b : List Char} (h : startsGt b = true) : b ≠ [] := by
  cases b with
  | nil => simp [startsGt] at h
  | cons c cs => simp

-- ===== Lemmas: splitting an appended string =====

/-- Splitting `A ++ X`: every line of `A` but the last is kept, the last
line of `A` is glued to the first line of `X`. -/
theorem splitOnNl_append (A X : List Char) {L1 : List (List Char)}
    {la x0 : List Char} {xs : List (List Char)}
    (hA : splitOnNl A = L1 ++ [la]) (hX : splitOnNl X = x0 :: xs) :
    splitOnNl (A ++ X) = L1 ++ (la ++ x0) :: xs := by
  induction A generalizing L1 la with
  | nil =>
    simp only [splitOnNl] at hA
    match L1, hA with
    | [], hA =>
      have : la = [] := by simpa using hA.symm
      subst this
      simpa using hX
    | l1 :: L1', hA =>
      exfalso
      have := congrArg List.length hA
      simp at this
  | cons c cs ih =>
    by_cases hc : c = '\n'
    · rw [show (c :: cs) ++ X = c :: (cs ++ X) from rfl]
      rw [show splitOnNl (c :: (cs ++ X)) = [] :: splitOnNl (cs ++ X) by
        rw [splitOnNl]; rw [if_pos hc]]
      rw [show splitOnNl (c :: cs) = [] :: splitOnNl cs by
        rw [splitOnNl]; rw [if_pos hc]] at hA
      match L1, hA with
      | [], hA =>
        exfalso
        have h1 : splitOnNl cs = [] := by
          have := congrArg List.tail hA
          simpa using this
        exact splitOnNl_ne_nil cs h1
      | l1 :: L1', hA =>
        have h1 : l1 = [] := by
          have := congrArg List.head? hA
          simpa using this.symm
        have h2 : splitOnNl cs = L1' ++ [la] := by
          have := congrArg List.tail hA
          simpa using this
        rw [ih h2, h1]
        rfl
    · have hsp : ∀ Y, splitOnNl (c :: Y) =
          (c :: (splitOnNl Y).headI) :: (splitOnNl Y).tail := by
        intro Y
        rw [splitOnNl]
        rw [if_neg hc]
        cases hY : splitOnNl Y with
        | nil => exact absurd hY (splitOnNl_ne_nil Y)
        | cons y ys => rfl
      cases hcs : splitOnNl cs with
      | nil => exact absurd hcs (splitOnNl_ne_nil cs)
      | cons l0 ls0 =>
        rw [hsp cs, hcs] at hA
        simp only [List.headI] at hA
        match ls0, L1, hA with
        | [], [], hA =>
          have hla : la = c :: l0 := by simpa using hA.symm
          have h2 : splitOnNl cs = [] ++ [l0] := by simpa using hcs
          rw [show (c :: cs) ++ X = c :: (cs ++ X) from rfl, hsp (cs ++ X),
            ih h2, hla]
          simp [List.headI]
        | [], l1 :: L1', hA =>
          exfalso
          have := congrArg List.length hA
          simp at this
        | ls00 :: ls0t, [], hA =>
          exfalso
          have := congrArg List.length hA
          simp at this
        | ls00 :: ls0t, l1 :: L1', hA =>
          have h1 : l1 = c :: l0 := by
            have := congrArg List.head? hA
            simpa using this.symm
          have h2 : splitOnNl cs = (l0 :: L1') ++ [la] := by
            rw [hcs]
            have := congrArg List.tail hA
            simp only [List.tail_cons] at this
            rw [this]
            rfl
          rw [show (c :: cs) ++ X = c :: (cs ++ X) from rfl, hsp (cs ++ X),
            ih h2, h1]
          simp [List.headI]

/-- A successful search survives appending more text: the matched lines
are intact except possibly the overall last, which keeps its `'>'` head. -/
theorem searchL_extend {A : List Char} (X : List Char)
    (h : searchL (splitOnNl A) = true) :
    searchL (splitOnNl (A ++ X)) = true := by
  obtain ⟨Y, l, a, b, t, hL, hsm, ha, hb⟩ := searchL_iff.mp h
  cases hX : splitOnNl X with
  | nil => exact absurd hX (splitOnNl_ne_nil X)
  | cons x0 xs =>
    rcases List.eq_nil_or_concat t with ht | ⟨t', z, ht⟩
    · subst ht
      have hA : splitOnNl A = (Y ++ [l, a]) ++ [b] := by rw [hL]; simp
      rw [splitOnNl_append A X hA hX]
      apply searchL_iff.mpr
      refine ⟨Y, l, a, b ++ x0, xs, by simp, hsm, ha, ?_⟩
      rw [startsGt_append_left x0 (startsGt_ne_nil hb)]
      exact hb
    · subst ht
      have hA : splitOnNl A = (Y ++ l :: a :: b :: t') ++ [z] := by rw [hL]; simp
      rw [splitOnNl_append A X hA hX]
      apply searchL_iff.mpr
      exact ⟨Y, l, a, b, t' ++ (z ++ x0) :: xs, by simp, hsm, ha, hb⟩

/-- A failed match attempt still fails when the following lines are
extended after an intervening empty line (an empty line can neither be a
`'>'` continuation line nor contain the marker). -/
theorem tryMatchLine_blankTail {l : List Char} {R M : List (List Char)}
    (h : tryMatchLine l R = none) :
    tryMatchLine l (R ++ [] :: M) = none := by
  cases ho : tryMatchLine l (R ++ [] :: M) with
  | none => rfl
  | some p =>
    exfalso
    have h2 := tryMatchLine_isSome_eq l (R ++ [] :: M)
    rw [ho] at h2
    have h1 := tryMatchLine_isSome_eq l R
    rw [h] at h1
    match R with
    | [] =>
      simp [firstTwoGt, startsGt] at h2
    | [r] =>
      simp [firstTwoGt, startsGt] at h2
    | r1 :: r2 :: R' =>
      simp only [firstTwoGt, List.cons_append, List.head?_cons,
        List.drop_succ_cons, List.drop_zero, Option.map_some', Option.getD_some,
        Option.isSome_some, Option.isSome_none] at h1 h2
      rw [← h2] at h1
      exact Bool.noConfusion h1

/-- Lines on which search fails are emitted unchanged by `re.sub` when an
empty line separates them from the rest of the document. -/
theorem subL_append_blank (T : List Char) {L M : List (List Char)}
    (hL : searchL L = false) :
    subL T (L ++ [] :: M) = (subL T ([] :: M)).map (fun o => lineJoin L ++ o) := by
  induction L with
  | nil =>
    simp only [List.nil_append, lineJoin]
    cases subL T ([] :: M) <;> simp
  | cons l ls ih =>
    rw [searchL_cons, Bool.or_eq_false_iff] at hL
    obtain ⟨hL1, hL2⟩ := hL
    have h1 : tryMatchLine l ls = none := by
      cases hx : tryMatchLine l ls with
      | none => rfl
      | some p => rw [hx] at hL1; exact absurd hL1 (by simp)
    have h3 : tryMatchLine l (ls ++ [] :: M) = none := tryMatchLine_blankTail h1
    have hcons : ∃ q qs, ls ++ [] :: M = q :: qs := by
      cases hq : ls ++ [] :: M with
      | nil => exact absurd hq (by simp)
      | cons q qs => exact ⟨q, qs, rfl⟩
    obtain ⟨q, qs, hq⟩ := hcons
    rw [List.cons_append, hq, subL_cons_none_cons T (hq ▸ h3), ← hq, ih hL2]
    cases hsub : subL T ([] :: M) with
    | none => rfl
    | some o => simp [lineJoin, List.append_assoc]

/-- Computing `re.sub` on an empty line followed by exactly a
three-line block region. -/
theorem subL_blank_block {T bl1 bl2 bl3 e : List Char}
    (hm : marker.isPrefixOf bl1 = true)
    (h2 : startsGt bl2 = true) (h3 : startsGt bl3 = true)
    (hex : expandTemplate (joinNl [bl1, bl2, bl3]) T = some e) :
    subL T ([] :: [bl1, bl2, bl3]) = some ('\n' :: e) := by
  have hsm : splitAtMarker bl1 = some ([], bl1) := by
    rw [splitAtMarker.eq_def, if_pos hm]
  have htm : tryMatchLine bl1 [bl2, bl3] =
      some ([], joinNl [bl1, bl2, bl3], []) := by
    unfold tryMatchLine
    rw [hsm]
    dsimp only
    rw [if_pos (by rw [h2, h3]; rfl)]
    rfl
  have hblank : tryMatchLine [] [bl1, bl2, bl3] = none := by
    unfold tryMatchLine
    rw [show splitAtMarker [] = none from by decide]
  rw [subL_cons_none_cons T hblank, subL_cons_match_nil T htm hex]
  rfl

-- ===== Lemmas: template expansion of backslash-free templates =====

theorem expandTemplateF_of_noBS (g : List Char) :
    ∀ n (t : List Char), t.length ≤ n → noBS t → expandTemplateF g n t = some t := by
  intro n
  induction n with
  | zero =>
    intro t hn _
    match t with
    | [] => rfl
  | succ n' ih =>
    intro t hn hbs
    match t with
    | [] => rfl
    | c :: rest =>
      have hc : c ≠ '\\' := fun hx => hbs (hx ▸ List.mem_cons_self c rest)
      rw [show expandTemplateF g (n' + 1) (c :: rest) =
        if c = '\\' then
          match escStep g rest with
          | none => none
          | some (out, k) =>
            (expandTemplateF g n' (rest.drop k)).map (fun o => out ++ o)
        else (expandTemplateF g n' rest).map (fun o => c :: o) from rfl]
      rw [if_neg hc]
      rw [ih rest (by simp only [List.length_cons] at hn; omega)
        (fun hx => hbs (List.mem_cons_of_mem c hx))]
      rfl

theorem expandTemplate_of_noBS {g T : List Char} (h : noBS T) :
    expandTemplate g T = some T :=
  expandTemplateF_of_noBS g T.length T (le_refl _) h

-- ===== Lemmas: structure of the rendered block =====

theorem noBS_append {a b : List Char} (ha : noBS a) (hb : noBS b) :
    noBS (a ++ b) := by
  intro hx
  rcases List.mem_append.mp hx with h | h
  · exact ha h
  · exact hb h

theorem noNl_append {a b : List Char} (ha : noNl a) (hb : noNl b) :
    noNl (a ++ b) := by
  intro hx
  rcases List.mem_append.mp hx with h | h
  · exact ha h
  · exact hb h

theorem noNl_blockLine1 {t : Track} (hn : noNl t.name) (ha : noNl t.artist)
    (hb : noNl t.album) : noNl (blockLine1 t) := by
  unfold blockLine1
  exact noNl_append (noNl_append (noNl_append (noNl_append
    (noNl_append (noNl_append (by decide) hn) (by decide)) ha)
    (by decide)) hb) (by decide)

theorem noNl_blockLine3 {t : Track} {now : List Char} (hu : noNl t.url)
    (hw : noNl now) : noNl (blockLine3 t now) := by
  unfold blockLine3
  exact noNl_append (noNl_append (noNl_append (by decide) hu) (by decide)) hw

/-- The rendered block splits into exactly its three lines. -/
theorem splitOnNl_block {t : Track} {now : List Char}
    (h1 : noNl (blockLine1 t)) (h3 : noNl (blockLine3 t now)) :
    splitOnNl (create_now_playing_block t now) =
      [blockLine1 t, blockLine2, blockLine3 t now] := by
  unfold create_now_playing_block
  rw [splitOnNl_append_nl, splitOnNl_append_nl,
    splitOnNl_of_noNl h1, splitOnNl_of_noNl h3,
    splitOnNl_of_noNl (show noNl blockLine2 by decide)]
  rfl

theorem marker_prefix_blockLine1 (t : Track) :
    marker.isPrefixOf (blockLine1 t) = true := by
  apply isPrefixOf_iff.mpr
  unfold blockLine1
  rw [show ("> **Now Playing:** ").data = marker ++ [' '] from by decide]
  rw [List.append_assoc, List.append_assoc, List.append_assoc,
    List.append_assoc, List.append_assoc, List.append_assoc]
  exact List.prefix_append marker _

theorem startsGt_blockLine2 : startsGt blockLine2 = true := by decide

theorem startsGt_blockLine3 (t : Track) (now : List Char) :
    startsGt (blockLine3 t now) = true := rfl

/-- Searching any line list that ends with the three block lines after a
blank line succeeds. -/
theorem searchL_block_suffix {t : Track} {now : List Char}
    (L : List (List Char)) :
    searchL (L ++ [[], blockLine1 t, blockLine2, blockLine3 t now]) = true := by
  apply searchL_append_right
  apply searchL_iff.mpr
  refine ⟨[[]], blockLine1 t, blockLine2, blockLine3 t now, [], rfl, ?_, ?_, ?_⟩
  · rw [splitAtMarker.eq_def, if_pos (marker_prefix_blockLine1 t)]
    rfl
  · exact startsGt_blockLine2
  · exact startsGt_blockLine3 t now

-- ===== Lemmas: rstrip =====

/-- A string is its rstrip plus trailing whitespace. -/
theorem rstripL_decomp (s : List Char) :
    s = rstripL s ++ (s.reverse.takeWhile pyWs).reverse := by
  calc s = (s.reverse).reverse := (List.reverse_reverse s).symm
    _ = (s.reverse.takeWhile pyWs ++ s.reverse.dropWhile pyWs).reverse := by
        rw [List.takeWhile_append_dropWhile]
    _ = (s.reverse.dropWhile pyWs).reverse ++ (s.reverse.takeWhile pyWs).reverse := by
        rw [List.reverse_append]
    _ = rstripL s ++ (s.reverse.takeWhile pyWs).reverse := rfl

-- ===== C7: the append path =====

/-- C7: For every document text containing no region matching the
StatusBlock shape, the patch result equals the original text with its
trailing whitespace trimmed, followed by exactly one blank line, followed
by the rendered block, and the result is reported as changed (differs
from the input).  (The track fields and timestamp are newline-free, as
the rendered three-line block shape requires.) -/
theorem c7_append_path (content : List Char) (t : Track) (now : List Char)
    (hn : noNl t.name) (ha : noNl t.artist) (hal : noNl t.album)
    (hu : noNl t.url) (hw : noNl now)
    (hs : searchL (splitOnNl content) = false) :
    update_content content (create_now_playing_block t now) =
      some (rstripL content ++ '\n' :: '\n' :: create_now_playing_block t now) ∧
    rstripL content ++ '\n' :: '\n' :: create_now_playing_block t now ≠ content := by
  have h1 : noNl (blockLine1 t) := noNl_blockLine1 hn ha hal
  have h3 : noNl (blockLine3 t now) := noNl_blockLine3 hu hw
  constructor
  · unfold update_content
    rw [if_neg (by rw [hs]; simp)]
  · intro heq
    have hsp : splitOnNl content = splitOnNl (rstripL content) ++
        [[], blockLine1 t, blockLine2, blockLine3 t now] := by
      conv_lhs => rw [← heq]
      rw [splitOnNl_append_nl]
      rw [show splitOnNl ('\n' :: create_now_playing_block t now) =
        [] :: splitOnNl (create_now_playing_block t now) from rfl]
      rw [splitOnNl_block h1 h3]
    rw [hsp, searchL_block_suffix (splitOnNl (rstripL content))] at hs
    exact absurd hs (by decide)

-- ===== C9: fingerprint determinism =====

/-- C9: `get_track_hash` is deterministic: two records with identical
artist, name, and album values yield the same fingerprint, regardless of
the `url` field — the result depends only on the artist/name/album
triple. -/
theorem c9_fingerprint_deterministic (t1 t2 : Track) (ha : t1.artist = t2.artist)
    (hn : t1.name = t2.name) (hal : t1.album = t2.album) :
    get_track_hash (some t1) = get_track_hash (some t2) := by
  unfold get_track_hash pyJoined
  dsimp only
  rw [ha, hn, hal]

/-- C9 witness: two records equal on the triple but with different urls
get the same fingerprint. -/
theorem c9_witness :
    (w9a.artist = w9b.artist ∧ w9a.name = w9b.name ∧ w9a.album = w9b.album ∧
      w9a.url ≠ w9b.url) ∧
    get_track_hash (some w9a) = get_track_hash (some w9b) :=
  ⟨by decide, c9_fingerprint_deterministic w9a w9b rfl rfl rfl⟩

-- ===== C4: fingerprint sensitivity =====

/-- C4 counterexample: two records that differ in artist (and name) but
hash to the same fingerprint, because the `:`-joined hash inputs
coincide: `"a:b" : "c" : "d"` and `"a" : "b:c" : "d"` are the same
string. -/
theorem c4_counterexample :
    (c4a.artist ≠ c4b.artist ∧ c4a.name ≠ c4b.name ∧ c4a.album = c4b.album) ∧
    get_track_hash (some c4a) = get_track_hash (some c4b) := by
  constructor
  · exact ⟨by decide, by decide, by decide⟩
  · have h : pyJoined c4a = pyJoined c4b := by decide
    unfold get_track_hash
    dsimp only
    rw [h]

theorem append_colon_inj {a1 a2 x y : List Char} (h1 : ':' ∉ a1) (h2 : ':' ∉ a2)
    (h : a1 ++ ':' :: x = a2 ++ ':' :: y) : a1 = a2 ∧ x = y := by
  induction a1 generalizing a2 with
  | nil =>
    cases a2 with
    | nil => simpa using h
    | cons c cs =>
      exfalso
      simp only [List.nil_append, List.cons_append, List.cons.injEq] at h
      exact h2 (h.1 ▸ List.mem_cons_self c cs)
  | cons c cs ih =>
    cases a2 with
    | nil =>
      exfalso
      simp only [List.nil_append, List.cons_append, List.cons.injEq] at h
      exact h1 (h.1.symm ▸ List.mem_cons_self c cs)
    | cons d ds =>
      simp only [List.cons_append, List.cons.injEq] at h
      obtain ⟨hc, h'⟩ := h
      obtain ⟨hl, hr⟩ := ih (fun hx => h1 (List.mem_cons_of_mem c hx))
        (fun hx => h2 (List.mem_cons_of_mem d hx)) h'
      exact ⟨by rw [hc, hl], hr⟩

/-- C4 amended: changing only `url` never changes the fingerprint; and
changing any of artist/name/album changes the `:`-joined string fed to
the hash, provided artist and name are free of `':'` — with colons in
those fields, distinct triples can produce the same joined string and
hence the same fingerprint (see the counterexample). -/
theorem c4_amended :
    (∀ t1 t2 : Track, ':' ∉ t1.artist → ':' ∉ t1.name → ':' ∉ t2.artist →
      ':' ∉ t2.name →
      ¬(t1.artist = t2.artist ∧ t1.name = t2.name ∧ t1.album = t2.album) →
      pyJoined t1 ≠ pyJoined t2) ∧
    (∀ t1 t2 : Track, t1.artist = t2.artist → t1.name = t2.name →
      t1.album = t2.album →
      get_track_hash (some t1) = get_track_hash (some t2)) := by
  constructor
  · intro t1 t2 ha1 hn1 ha2 hn2 hne h
    unfold pyJoined at h
    simp only [List.append_assoc, List.cons_append] at h
    obtain ⟨ha, h'⟩ := append_colon_inj ha1 ha2 h
    obtain ⟨hn, hal⟩ := append_colon_inj hn1 hn2 h'
    exact hne ⟨ha, hn, hal⟩
  · intro t1 t2 ha hn hal
    unfold get_track_hash pyJoined
    dsimp only
    rw [ha, hn, hal]

/-- C4 amended witness: colon-free records differing in name have
different hash inputs; records equal on the triple have equal
fingerprints. -/
theorem c4_amended_witness :
    (':' ∉ w4a.artist ∧ ':' ∉ w4a.name ∧ ':' ∉ w4b.artist ∧ ':' ∉ w4b.name ∧
      ¬(w4a.artist = w4b.artist ∧ w4a.name = w4b.name ∧ w4a.album = w4b.album) ∧
      pyJoined w4a ≠ pyJoined w4b) ∧
    get_track_hash (some w4a) = get_track_hash (some w4a) :=
  ⟨⟨by decide, by decide, by decide, by decide, by decide,
    c4_amended.1 w4a w4b (by decide) (by decide) (by decide) (by decide)
      (by decide)⟩,
   c4_amended.2 w4a w4a rfl rfl rfl⟩

-- ===== C2: error containment in get_current_track =====

/-- C2 (code bug): `get_current_track` returns `None` for network
errors, non-2xx statuses and malformed JSON bodies (all
`requests.RequestException`s), but a 2xx response whose body is missing
an expected field — here the empty JSON object, which lacks
`recenttracks` — raises an uncaught `KeyError` that propagates to `main`
and terminates the process, contradicting the spec's "never raises to
the caller".  For contrast, a body in the real API shape (artist and
album as objects carrying `#text`) parses into the record, and a body
whose artist is a bare string also raises (the uncaught `TypeError`
from indexing a string with a string). -/
theorem c2_missing_fields_raise :
    get_current_track (Resp.ok (Jv.obj [])) = FetchResult.raised ∧
    get_current_track
        (Resp.ok (apiBody ("A").data ("N").data ("L").data ("U").data)) =
      FetchResult.ok
        { artist := ("A").data, name := ("N").data,
          album := ("L").data, url := ("U").data } ∧
    get_current_track
        (Resp.ok (bareArtistBody ("A").data ("N").data ("L").data ("U").data)) =
      FetchResult.raised ∧
    get_current_track Resp.netError = FetchResult.absent ∧
    get_current_track (Resp.httpError 404) = FetchResult.absent ∧
    get_current_track Resp.badJson = FetchResult.absent :=
  ⟨rfl, rfl, rfl, rfl, rfl, rfl⟩

-- ===== C1: the fingerprint is advanced even when publishing fails =====

/-- C1 (code bug): in a cycle where the publish fails — here the README
read raises, so `update_repo` performs no effect at all — `main` still
executes `last_track_hash = current_track_hash`, because `update_repo`
swallows every exception and returns normally with no success signal.
The stored fingerprint advances from `None` to the new track's hash, so
the next cycle will NOT re-attempt the publish, contradicting the
spec's "PollState fingerprint must NOT be advanced on failure". -/
theorem c1_fingerprint_advances_on_failure :
    cycle none (some c1_track) c1_now c1_world =
      (get_track_hash (some c1_track), []) ∧
    get_track_hash (some c1_track) ≠ none := by
  have hne : get_track_hash (some c1_track) ≠ none := by
    unfold get_track_hash
    simp
  refine ⟨?_, hne⟩
  show (if get_track_hash (some c1_track) ≠ none then
      (get_track_hash (some c1_track), update_repo c1_track c1_now c1_world)
    else (none, [])) = (get_track_hash (some c1_track), [])
  rw [if_pos hne]
  rfl

-- ===== C6: no-op cycles perform no effects =====

/-- C6: whenever the patched text is byte-identical to the current
document, or the fetched track's fingerprint equals the stored one, no
effect occurs: no file write, no git stage, no commit amend, no push. -/
theorem c6_noop_no_effects (t : Track) (now : List Char) :
    (∀ (w : RepoWorld) (content : List Char), w.readRes = some content →
      update_content content (create_now_playing_block t now) = some content →
      update_repo t now w = []) ∧
    (∀ (w : RepoWorld) (lastHash : Option (List Char)),
      lastHash = get_track_hash (some t) →
      cycle lastHash (some t) now w = (lastHash, [])) := by
  constructor
  · intro w content hr hid
    unfold update_repo
    rw [hr]
    dsimp only
    rw [hid]
    dsimp only
    rw [if_pos rfl]
  · intro w lastHash hl
    subst hl
    show (if get_track_hash (some t) ≠ get_track_hash (some t) then
        (get_track_hash (some t), update_repo t now w)
      else (get_track_hash (some t), [])) = (get_track_hash (some t), [])
    rw [if_neg (by simp)]

/-- C6 witness: a document already holding the freshly rendered block is
left alone (patch is an identity, no effects), and an unchanged
fingerprint short-circuits the whole publish. -/
theorem c6_witness :
    (c6_world.readRes = some c6_doc ∧
      update_content c6_doc (create_now_playing_block c6_track c6_now) =
        some c6_doc ∧
      update_repo c6_track c6_now c6_world = []) ∧
    cycle (get_track_hash (some c6_track)) (some c6_track) c6_now c6_world =
      (get_track_hash (some c6_track), []) :=
  ⟨⟨rfl, by decide,
    (c6_noop_no_effects c6_track c6_now).1 c6_world c6_doc rfl (by decide)⟩,
   (c6_noop_no_effects c6_track c6_now).2 c6_world _ rfl⟩

-- ===== C5: the block grammar needs two continuation lines =====

/-- C5 counterexample: a document whose marker line is followed by
exactly ONE `'>'`-continuation line is NOT recognized (`re.search`
fails) and `update_repo` takes the append path, contradicting the
claimed marker-plus-one-or-more-lines grammar. -/
theorem c5_counterexample :
    searchL (splitOnNl c5_doc) = false ∧
    update_content c5_doc (create_now_playing_block c5_track c5_now) =
      some (rstripL c5_doc ++ '\n' :: '\n' ::
        create_now_playing_block c5_track c5_now) := by
  constructor
  · decide
  · decide

/-- C5 amended: the pattern
`> \*\*Now Playing:\*\*.*\n>.*\n>.*(?:\n>.*)*` requires the marker line
plus at least TWO `'>'`-continuation lines; any line list shaped that way
is recognized, so patch takes the replace path for it. -/
theorem c5_amended (lm a b : List Char) (rest : List (List Char))
    (pre f : List Char) (hm : splitAtMarker lm = some (pre, f))
    (ha : startsGt a = true) (hb : startsGt b = true) :
    searchL (lm :: a :: b :: rest) = true := by
  apply searchL_iff.mpr
  exact ⟨[], lm, a, b, rest, rfl, by rw [hm]; rfl, ha, hb⟩

/-- C5 amended witness: marker line plus two continuation lines is
recognized. -/
theorem c5_amended_witness :
    (splitAtMarker (("> **Now Playing:** w").data) =
      some ([], ("> **Now Playing:** w").data) ∧
      startsGt (("> a").data) = true ∧ startsGt (("> b").data) = true) ∧
    searchL [("> **Now Playing:** w").data, ("> a").data, ("> b").data] = true :=
  ⟨⟨by decide, by decide, by decide⟩,
   c5_amended (("> **Now Playing:** w").data) (("> a").data) (("> b").data) []
     [] (("> **Now Playing:** w").data) (by decide) (by decide) (by decide)⟩

-- ===== C10: the rendered block is a replacement template =====

/-- C10: because the rendered block is passed to `re.sub` as a
replacement template, a track name containing `\g<0>` makes the replace
path paste the OLD matched block into the new one (result differs from
the verbatim replacement and no error is raised), and a track name
containing `\q` makes `re.sub` raise (`bad escape`, modelled `none`). -/
theorem c10_template_escapes :
    (update_content c10_doc (create_now_playing_block c10_track c10_now) ≠
      some c10_verbatim ∧
     update_content c10_doc (create_now_playing_block c10_track c10_now) ≠
      none) ∧
    update_content c10_doc (create_now_playing_block c10_track2 c10_now) =
      none := by
  refine ⟨⟨?_, ?_⟩, ?_⟩
  · decide
  · decide
  · decide

-- ===== C3: all matched regions are replaced, not only the first =====

/-- C3 counterexample: on a document with two disjoint matching regions,
`re.sub` (no `count` argument) replaces BOTH; the bytes of the second
region are not preserved, contradicting the claimed
only-the-first-match replacement. -/
theorem c3_counterexample :
    update_content c3_doc (create_now_playing_block c3_track c3_now) ≠
      some c3_claimed ∧
    update_content c3_doc (create_now_playing_block c3_track c3_now) =
      some c3_actual := by
  constructor
  · decide
  · decide

-- ===== C7 witness =====

/-- C7 witness: a concrete blockless document gets the block appended
after exactly one blank line and the result differs from the input. -/
theorem c7_witness :
    (noNl w7_track.name ∧ noNl w7_track.artist ∧ noNl w7_track.album ∧
      noNl w7_track.url ∧ noNl w7_now ∧
      searchL (splitOnNl w7_doc) = false) ∧
    (update_content w7_doc (create_now_playing_block w7_track w7_now) =
      some (rstripL w7_doc ++ '\n' :: '\n' ::
        create_now_playing_block w7_track w7_now) ∧
     rstripL w7_doc ++ '\n' :: '\n' ::
        create_now_playing_block w7_track w7_now ≠ w7_doc) :=
  ⟨⟨by decide, by decide, by decide, by decide, by decide, by decide⟩,
   c7_append_path w7_doc w7_track w7_now (by decide) (by decide) (by decide)
     (by decide) (by decide) (by decide)⟩

-- ===== Lemmas: sub over marker-free stretches and whole block matches =====

theorem tryMatchLine_none_of_noMarker {l : List Char} (rest : List (List Char))
    (h : splitAtMarker l = none) : tryMatchLine l rest = none := by
  unfold tryMatchLine
  rw [h]

/-- `re.sub` leaves marker-free line lists unchanged. -/
theorem subL_id {L : List (List Char)} (T : List Char)
    (h : ∀ l ∈ L, splitAtMarker l = none) : subL T L = some (joinNl L) := by
  induction L with
  | nil => rfl
  | cons l ls ih =>
    have hl : tryMatchLine l ls = none :=
      tryMatchLine_none_of_noMarker ls (h l (by simp))
    cases ls with
    | nil => rw [subL_singleton_none T hl]; rfl
    | cons q qs =>
      rw [subL_cons_none_cons T hl, ih (fun x hx => h x (List.mem_cons_of_mem l hx))]
      rfl

/-- `re.sub` emits marker-free leading lines unchanged and continues. -/
theorem subL_append_noMarker (T : List Char) {L : List (List Char)}
    {q : List Char} {qs : List (List Char)}
    (h : ∀ l ∈ L, splitAtMarker l = none) :
    subL T (L ++ q :: qs) =
      (subL T (q :: qs)).map (fun o => lineJoin L ++ o) := by
  induction L with
  | nil =>
    simp only [List.nil_append, lineJoin]
    cases subL T (q :: qs) <;> simp
  | cons l ls ih =>
    have hl : tryMatchLine l (ls ++ q :: qs) = none :=
      tryMatchLine_none_of_noMarker _ (h l (by simp))
    have hsh : ∃ r rs, ls ++ q :: qs = r :: rs := by
      cases hq : ls ++ q :: qs with
      | nil => exact absurd hq (by simp)
      | cons r rs => exact ⟨r, rs, rfl⟩
    obtain ⟨r, rs, hq⟩ := hsh
    rw [List.cons_append, hq, subL_cons_none_cons T (hq ▸ hl), ← hq,
      ih (fun x hx => h x (List.mem_cons_of_mem l hx))]
    cases subL T (q :: qs) with
    | none => rfl
    | some o => simp [lineJoin, List.append_assoc]

theorem takeWhile_append_stop {α : Type} {p : α → Bool} {e1 : List α} {x : α}
    {B : List α} (he : ∀ y ∈ e1, p y = true) (hx : p x = false) :
    (e1 ++ x :: B).takeWhile p = e1 ∧ (e1 ++ x :: B).dropWhile p = x :: B := by
  induction e1 with
  | nil =>
    simp only [List.nil_append, List.takeWhile_cons, List.dropWhile_cons, hx]
    simp
  | cons y ys ih =>
    have hy : p y = true := he y (by simp)
    obtain ⟨h1, h2⟩ := ih (fun z hz => he z (List.mem_cons_of_mem y hz))
    simp only [List.cons_append, List.takeWhile_cons, List.dropWhile_cons, hy]
    exact ⟨by rw [if_pos trivial, h1], by rw [if_pos trivial, h2]⟩

theorem takeWhile_all {α : Type} {p : α → Bool} {e1 : List α}
    (he : ∀ y ∈ e1, p y = true) :
    e1.takeWhile p = e1 ∧ e1.dropWhile p = [] := by
  induction e1 with
  | nil => exact ⟨rfl, rfl⟩
  | cons y ys ih =>
    have hy : p y = true := he y (by simp)
    obtain ⟨h1, h2⟩ := ih (fun z hz => he z (List.mem_cons_of_mem y hz))
    simp only [List.takeWhile_cons, List.dropWhile_cons, hy]
    exact ⟨by rw [if_pos trivial, h1], by rw [if_pos trivial, h2]⟩

/-- The full match at a block head: marker line, two required
continuation lines, greedy extension `ext`, stopped by a non-`'>'`
line. -/
theorem tryMatchLine_block {l pre f a b : List Char} {ext : List (List Char)}
    {x : List Char} {ts : List (List Char)}
    (hm : splitAtMarker l = some (pre, f)) (ha : startsGt a = true)
    (hb : startsGt b = true) (hext : ∀ y ∈ ext, startsGt y = true)
    (hx : startsGt x = false) :
    tryMatchLine l (a :: b :: (ext ++ x :: ts)) =
      some (pre, joinNl (f :: a :: b :: ext), x :: ts) := by
  unfold tryMatchLine
  rw [hm]
  dsimp only
  rw [if_pos (by rw [ha, hb]; rfl)]
  obtain ⟨h1, h2⟩ := takeWhile_append_stop hext hx
  rw [h1, h2]

/-- The full match at a block head that runs to the end of the document. -/
theorem tryMatchLine_block_end {l pre f a b : List Char} {ext : List (List Char)}
    (hm : splitAtMarker l = some (pre, f)) (ha : startsGt a = true)
    (hb : startsGt b = true) (hext : ∀ y ∈ ext, startsGt y = true) :
    tryMatchLine l (a :: b :: ext) =
      some (pre, joinNl (f :: a :: b :: ext), []) := by
  unfold tryMatchLine
  rw [hm]
  dsimp only
  rw [if_pos (by rw [ha, hb]; rfl)]
  obtain ⟨h1, h2⟩ := takeWhile_all hext
  rw [h1, h2]

/-- C3 amended: `re.sub` replaces EVERY disjoint matched region with the
expanded replacement (here a backslash-free template, pasted literally),
not only the first; the bytes outside the matched regions — before the
first region, between the regions, and after the second — are preserved
unchanged. -/
theorem c3_amended (T : List Char) (hT : noBS T)
    (L1 : List (List Char)) (m1 a1 b1 : List Char) (e1 : List (List Char))
    (x2 : List Char) (L2 : List (List Char)) (m2 a2 b2 : List Char)
    (e2 : List (List Char)) (x3 : List Char) (L3 : List (List Char))
    (pre1 f1 pre2 f2 : List Char)
    (hL1 : ∀ l ∈ L1, splitAtMarker l = none)
    (hm1 : splitAtMarker m1 = some (pre1, f1))
    (ha1 : startsGt a1 = true) (hb1 : startsGt b1 = true)
    (he1 : ∀ y ∈ e1, startsGt y = true)
    (hx2 : startsGt x2 = false) (hx2m : splitAtMarker x2 = none)
    (hL2 : ∀ l ∈ L2, splitAtMarker l = none)
    (hm2 : splitAtMarker m2 = some (pre2, f2))
    (ha2 : startsGt a2 = true) (hb2 : startsGt b2 = true)
    (he2 : ∀ y ∈ e2, startsGt y = true)
    (hx3 : startsGt x3 = false) (hx3m : splitAtMarker x3 = none)
    (hL3 : ∀ l ∈ L3, splitAtMarker l = none) :
    subL T (L1 ++ m1 :: a1 :: b1 ::
        (e1 ++ x2 :: (L2 ++ m2 :: a2 :: b2 :: (e2 ++ x3 :: L3)))) =
      some (lineJoin L1 ++ pre1 ++ T ++ '\n' ::
        (lineJoin (x2 :: L2) ++ pre2 ++ T ++ '\n' :: joinNl (x3 :: L3))) := by
  have hexp1 : expandTemplate (joinNl (f1 :: a1 :: b1 :: e1)) T = some T :=
    expandTemplate_of_noBS hT
  have hexp2 : expandTemplate (joinNl (f2 :: a2 :: b2 :: e2)) T = some T :=
    expandTemplate_of_noBS hT
  rw [subL_append_noMarker T hL1]
  have htm1 : tryMatchLine m1 (a1 :: b1 ::
      (e1 ++ x2 :: (L2 ++ m2 :: a2 :: b2 :: (e2 ++ x3 :: L3)))) =
      some (pre1, joinNl (f1 :: a1 :: b1 :: e1),
        x2 :: (L2 ++ m2 :: a2 :: b2 :: (e2 ++ x3 :: L3))) :=
    tryMatchLine_block hm1 ha1 hb1 he1 hx2
  rw [subL_cons_match_cons T htm1 hexp1]
  rw [show x2 :: (L2 ++ m2 :: a2 :: b2 :: (e2 ++ x3 :: L3)) =
    (x2 :: L2) ++ m2 :: a2 :: b2 :: (e2 ++ x3 :: L3) from rfl]
  rw [subL_append_noMarker T (by
    intro l hl
    rcases List.mem_cons.mp hl with h | h
    · exact h ▸ hx2m
    · exact hL2 l h)]
  have htm2 : tryMatchLine m2 (a2 :: b2 :: (e2 ++ x3 :: L3)) =
      some (pre2, joinNl (f2 :: a2 :: b2 :: e2), x3 :: L3) :=
    tryMatchLine_block hm2 ha2 hb2 he2 hx3
  rw [subL_cons_match_cons T htm2 hexp2]
  rw [subL_id T (by
    intro l hl
    rcases List.mem_cons.mp hl with h | h
    · exact h ▸ hx3m
    · exact hL3 l h)]
  simp [List.append_assoc]

/-- C3 amended witness: a concrete document with two block regions;
both get replaced, the line `A` before, `MID` between, and `Z` after are
preserved. -/
theorem c3_amended_witness :
    (noBS w3T ∧
      splitAtMarker (("> **Now Playing:** o1").data) =
        some ([], ("> **Now Playing:** o1").data) ∧
      splitAtMarker (("> **Now Playing:** o2").data) =
        some ([], ("> **Now Playing:** o2").data) ∧
      startsGt (("MID").data) = false ∧ startsGt (("Z").data) = false) ∧
    subL w3T ([("A").data] ++ ("> **Now Playing:** o1").data ::
        ("> a").data :: ("> b").data ::
        ([] ++ ("MID").data :: ([] ++ ("> **Now Playing:** o2").data ::
          ("> c").data :: ("> d").data :: ([] ++ ("Z").data :: [])))) =
      some (lineJoin [("A").data] ++ [] ++ w3T ++ '\n' ::
        (lineJoin [("MID").data] ++ [] ++ w3T ++ '\n' ::
          joinNl [("Z").data])) :=
  ⟨⟨by decide, by decide, by decide, by decide, by decide⟩,
   c3_amended w3T (by decide) [("A").data]
     (("> **Now Playing:** o1").data) (("> a").data) (("> b").data) []
     (("MID").data) [] (("> **Now Playing:** o2").data) (("> c").data)
     (("> d").data) [] (("Z").data) []
     [] (("> **Now Playing:** o1").data) [] (("> **Now Playing:** o2").data)
     (by decide) (by decide) (by decide) (by decide) (by decide) (by decide)
     (by decide) (by decide) (by decide) (by decide) (by decide) (by decide)
     (by decide) (by decide) (by decide)⟩

/-- C8 counterexample: a track whose name contains `\1`; the first patch
appends its block verbatim, but the second patch feeds the block to
`re.sub` as a template, the `\1` expands to the whole matched region,
and the output differs from the input — the second application reports
changed, not `changed=false`. -/
theorem c8_counterexample :
    update_content c8_doc (create_now_playing_block c8_track c8_now) =
      some c8_doc2 ∧
    update_content c8_doc2 (create_now_playing_block c8_track c8_now) ≠
      some c8_doc2 := by
  constructor
  · decide
  · decide

theorem lineJoin_eq_joinNl {L : List (List Char)} (h : L ≠ []) :
    lineJoin L = joinNl L ++ ['\n'] := by
  induction L with
  | nil => exact absurd rfl h
  | cons l ls ih =>
    cases ls with
    | nil => rfl
    | cons q qs =>
      rw [show lineJoin (l :: q :: qs) = l ++ '\n' :: lineJoin (q :: qs) from rfl,
        ih (by simp), joinNl_cons_of_ne_nil l (by simp)]
      simp [List.append_assoc]

theorem rstripL_of_getLast {s : List Char} {c : Char} (h : s.getLast? = some c)
    (hc : pyWs c = false) : rstripL s = s := by
  unfold rstripL
  rw [← List.head?_reverse] at h
  cases hs : s.reverse with
  | nil => rw [hs] at h; simp at h
  | cons d ds =>
    rw [hs] at h
    simp only [List.head?_cons, Option.some.injEq] at h
    subst h
    rw [List.dropWhile_cons, if_neg (by rw [hc]; simp)]
    rw [← hs, List.reverse_reverse]

theorem lstripL_of_head {s : List Char} {c : Char} (h : s.head? = some c)
    (hc : pyWs c = false) : lstripL s = s := by
  unfold lstripL
  cases s with
  | nil => simp at h
  | cons d ds =>
    simp only [List.head?_cons, Option.some.injEq] at h
    subst h
    rw [List.dropWhile_cons, if_neg (by rw [hc]; simp)]

/-- A timestamp with no trailing whitespace ends in a non-whitespace
character. -/
theorem now_last_not_ws {now : List Char} (hne : now ≠ [])
    (hr : rstripL now = now) :
    ∃ c, now.getLast? = some c ∧ pyWs c = false := by
  have h1 : now.reverse.dropWhile pyWs = now.reverse := by
    have h2 := congrArg List.reverse hr
    unfold rstripL at h2
    rw [List.reverse_reverse] at h2
    exact h2
  cases hs : now.reverse with
  | nil =>
    exfalso
    apply hne
    rw [← List.reverse_reverse now, hs]
    rfl
  | cons d ds =>
    refine ⟨d, ?_, ?_⟩
    · rw [← List.head?_reverse, hs]
      rfl
    · by_contra hd
      have hd' : pyWs d = true := by
        cases hx : pyWs d with
        | false => exact absurd hx hd
        | true => rfl
      rw [hs, List.dropWhile_cons, if_pos (by rw [hd'])] at h1
      have := congrArg List.length h1
      have hle := length_dropWhile_le' pyWs ds
      simp only [List.length_cons] at this
      omega

theorem head?_append_ne {α : Type} {a : List α} (b : List α) (h : a ≠ []) :
    (a ++ b).head? = a.head? := by
  cases a with
  | nil => exact absurd rfl h
  | cons c cs => rfl

theorem getLast?_append_ne {α : Type} (a : List α) {b : List α} (h : b ≠ []) :
    (a ++ b).getLast? = b.getLast? := by
  rw [← List.head?_reverse, ← List.head?_reverse, List.reverse_append,
    head?_append_ne _ (by simpa using h)]

theorem getLast?_block {t : Track} {now : List Char} (hne : now ≠ []) :
    (create_now_playing_block t now).getLast? = now.getLast? := by
  unfold create_now_playing_block blockLine3
  rw [show blockLine1 t ++ '\n' :: blockLine2 ++
      '\n' :: (("> [Last.fm](").data ++ t.url ++ (") | Updated: ").data ++ now) =
    (blockLine1 t ++ '\n' :: blockLine2 ++
      ('\n' :: (("> [Last.fm](").data ++ t.url ++ (") | Updated: ").data))) ++ now
    from by simp [List.append_assoc]]
  exact getLast?_append_ne _ hne

theorem head?_block (t : Track) (now : List Char) :
    (create_now_playing_block t now).head? = some '>' := rfl

/-- With a nonempty, right-stripped timestamp, `new_block.strip()` is the
block itself: it starts with `'>'` and ends with the timestamp's last
character. -/
theorem stripL_block {t : Track} {now : List Char} (hne : now ≠ [])
    (hr : rstripL now = now) :
    stripL (create_now_playing_block t now) = create_now_playing_block t now := by
  obtain ⟨c, hlast, hws⟩ := now_last_not_ws hne hr
  unfold stripL
  rw [rstripL_of_getLast (by rw [getLast?_block hne]; exact hlast) hws]
  exact lstripL_of_head (head?_block t now) (by decide)

-- ===== Lemmas: toward sub idempotence =====

theorem tryMatchLine_nil (l : List Char) : tryMatchLine l [] = none := by
  unfold tryMatchLine
  cases splitAtMarker l with
  | none => rfl
  | some p => rfl

/-- Anatomy of a successful match attempt. -/
theorem tryMatchLine_eq_some {l : List Char} {rest : List (List Char)}
    {pre m : List Char} {rem : List (List Char)}
    (h : tryMatchLine l rest = some (pre, m, rem)) :
    ∃ f a b rest2, splitAtMarker l = some (pre, f) ∧ rest = a :: b :: rest2 ∧
      startsGt a = true ∧ startsGt b = true ∧
      m = joinNl (f :: a :: b :: rest2.takeWhile startsGt) ∧
      rem = rest2.dropWhile startsGt := by
  unfold tryMatchLine at h
  cases hs : splitAtMarker l with
  | none => rw [hs] at h; exact absurd h (by simp)
  | some p =>
    obtain ⟨pre', f⟩ := p
    rw [hs] at h
    match rest with
    | [] => exact absurd h (by simp)
    | [l1] => exact absurd h (by simp)
    | l1 :: l2 :: rest2 =>
      dsimp only at h
      by_cases hg : (startsGt l1 && startsGt l2) = true
      · rw [if_pos hg] at h
        simp only [Option.some.injEq, Prod.mk.injEq] at h
        obtain ⟨hp, hmm, hrem⟩ := h
        simp only [Bool.and_eq_true] at hg
        exact ⟨f, l1, l2, rest2, by rw [hp], rfl, hg.1, hg.2, hmm.symm,
          hrem.symm⟩
      · rw [if_neg hg] at h
        exact absurd h (by simp)

theorem noNl_of_append_left {a b : List Char} (h : noNl (a ++ b)) : noNl a :=
  fun hx => h (List.mem_append.mpr (Or.inl hx))

theorem startsGt_of_marker_prefixed {x : List Char}
    (h : marker.isPrefixOf x = true) : startsGt x = true := by
  obtain ⟨t, ht⟩ := isPrefixOf_iff.mp h
  rw [← ht]
  rw [show marker ++ t = '>' :: (marker.tail ++ t) from by
    rw [show marker = '>' :: marker.tail from by decide]; rfl]
  simp [startsGt]

theorem dropWhile_cons_head_false {α : Type} {p : α → Bool} {xs : List α}
    {y : α} {ys : List α} (h : xs.dropWhile p = y :: ys) : p y = false := by
  induction xs with
  | nil => simp [List.dropWhile] at h
  | cons x xt ih =>
    rw [List.dropWhile_cons] at h
    by_cases hx : p x = true
    · rw [if_pos (by rw [hx])] at h
      exact ih h
    · rw [if_neg (by simpa using hx)] at h
      obtain ⟨h1, -⟩ := List.cons.injEq .. ▸ h
      rw [← h1]
      simpa using hx

theorem firstTwoGt_cons (l : List Char) (X : List (List Char)) :
    firstTwoGt (l :: X) = (some (startsGt l), X.head?.map startsGt) := rfl

theorem splitOnNl_pre_block {bl1 bl2 bl3 B pre : List Char}
    (hB : B = bl1 ++ '\n' :: bl2 ++ '\n' :: bl3)
    (h1n : noNl bl1) (h2n : noNl bl2) (h3n : noNl bl3) (hpre : noNl pre) :
    splitOnNl (pre ++ B) = [pre ++ bl1, bl2, bl3] := by
  subst hB
  rw [show pre ++ (bl1 ++ '\n' :: bl2 ++ '\n' :: bl3) =
    ((pre ++ bl1) ++ '\n' :: bl2) ++ '\n' :: bl3 from by simp [List.append_assoc]]
  rw [splitOnNl_append_nl, splitOnNl_append_nl,
    splitOnNl_of_noNl (noNl_append hpre h1n), splitOnNl_of_noNl h2n,
    splitOnNl_of_noNl h3n]
  rfl

/-- The heart of patch idempotence: if one `re.sub` pass (with a clean
three-line block as both pattern target and replacement) rewrote the
line list `L` into `out`, then a second pass over `out` leaves it
unchanged; moreover re-searching `out` still succeeds if the first
search did, and the `'>'`-skeleton of the first two lines is
preserved. -/
theorem subL_idem_aux (bl1 bl2 bl3 B : List Char)
    (hB : B = bl1 ++ '\n' :: bl2 ++ '\n' :: bl3)
    (hm : marker.isPrefixOf bl1 = true) (h2 : startsGt bl2 = true)
    (h3 : startsGt bl3 = true) (h1n : noNl bl1) (h2n : noNl bl2)
    (h3n : noNl bl3) (hBS : noBS B) :
    ∀ n (L : List (List Char)), L.length ≤ n → (∀ l ∈ L, noNl l) →
      ∀ out, subL B L = some out →
        subL B (splitOnNl out) = some out ∧
        (searchL L = true → searchL (splitOnNl out) = true) ∧
        (L ≠ [] → firstTwoGt (splitOnNl out) = firstTwoGt L) := by
  intro n
  induction n using Nat.strong_induction_on with
  | _ n ih =>
    intro L hn hnl out hsub
    match L with
    | [] =>
      have hout : out = [] := by
        rw [subL_nil] at hsub
        exact (Option.some.injEq .. ▸ hsub).symm
      subst hout
      refine ⟨?_, ?_, ?_⟩
      · rw [show splitOnNl [] = [[]] from rfl]
        exact subL_singleton_none B (tryMatchLine_nil [])
      · intro hx
        exact absurd hx (by simp [searchL])
      · intro hx
        exact absurd rfl hx
    | l :: rest =>
      have hlnl : noNl l := hnl l (by simp)
      obtain ⟨n', hn'⟩ : ∃ n', n = n' + 1 := by
        cases n with
        | zero => simp at hn
        | succ k => exact ⟨k, rfl⟩
      subst hn'
      cases htm : tryMatchLine l rest with
      | none =>
        cases rest with
        | nil =>
          rw [subL_singleton_none B htm] at hsub
          have hout : out = l := (Option.some.injEq .. ▸ hsub).symm
          subst hout
          rw [splitOnNl_of_noNl hlnl]
          refine ⟨subL_singleton_none B (tryMatchLine_nil out), ?_, ?_⟩
          · intro hx
            rw [searchL_cons, htm] at hx
            simp [searchL] at hx
          · intro _
            rfl
        | cons r rs =>
          rw [subL_cons_none_cons B htm] at hsub
          obtain ⟨out', hsub', hout⟩ := Option.map_eq_some'.mp hsub
          subst hout
          obtain ⟨ih1, ih2, ih3⟩ := ih n' (by omega) (r :: rs)
            (by simp only [List.length_cons] at hn ⊢; omega)
            (fun x hx => hnl x (List.mem_cons_of_mem l hx)) out' hsub'
          have hskel := ih3 (by simp)
          have hsp : splitOnNl (l ++ '\n' :: out') = l :: splitOnNl out' := by
            rw [splitOnNl_append_nl, splitOnNl_of_noNl hlnl]
            rfl
          rw [hsp]
          have htm2 : tryMatchLine l (splitOnNl out') = none := by
            have hc := tryMatchLine_isSome_congr (l := l) hskel
            rw [htm] at hc
            simp only [Option.isSome_none] at hc
            cases hx : tryMatchLine l (splitOnNl out') with
            | none => rfl
            | some p => rw [hx] at hc; exact absurd hc.symm (by simp)
          refine ⟨?_, ?_, ?_⟩
          · cases hso : splitOnNl out' with
            | nil => exact absurd hso (splitOnNl_ne_nil out')
            | cons q qs =>
              have htm3 : tryMatchLine l (q :: qs) = none := by
                rw [← hso]; exact htm2
              rw [subL_cons_none_cons B htm3]
              rw [← hso]
              rw [ih1]
              rfl
          · intro hx
            rw [searchL_cons, htm] at hx
            simp only [Option.isSome_none, Bool.false_or] at hx
            rw [searchL_cons, htm2]
            simp only [Option.isSome_none, Bool.false_or]
            exact ih2 hx
          · intro _
            rw [firstTwoGt_cons, firstTwoGt_cons]
            have h1 : (splitOnNl out').head?.map startsGt =
                ((r :: rs).head?.map startsGt) := congrArg Prod.fst hskel
            rw [h1]
      | some p =>
        obtain ⟨pre, m, rem⟩ := p
        obtain ⟨f, a, b, rest2, hsm, hrest, hga, hgb, hmjoin, hrem⟩ :=
          tryMatchLine_eq_some htm
        obtain ⟨hldec, hfpref, hnm⟩ := splitAtMarker_eq_some hsm
        have hprenl : noNl pre := by
          rw [hldec] at hlnl
          exact noNl_of_append_left hlnl
        have hexp : expandTemplate m B = some B := expandTemplate_of_noBS hBS
        have hsm2 : splitAtMarker (pre ++ bl1) = some (pre, bl1) :=
          splitAtMarker_append hnm hm
        have hgtpre : startsGt (pre ++ bl1) = startsGt l := by
          cases hp : pre with
          | nil =>
            rw [hldec, hp, List.nil_append, List.nil_append,
              startsGt_of_marker_prefixed hm, startsGt_of_marker_prefixed hfpref]
          | cons c cs =>
            rw [hldec, hp, startsGt_append_left _ (by simp),
              startsGt_append_left _ (by simp)]
        cases hremc : rem with
        | nil =>
          subst hremc
          rw [subL_cons_match_nil B htm hexp] at hsub
          have hout : out = pre ++ B := (Option.some.injEq .. ▸ hsub).symm
          subst hout
          rw [splitOnNl_pre_block hB h1n h2n h3n hprenl]
          have htm2 : tryMatchLine (pre ++ bl1) [bl2, bl3] =
              some (pre, joinNl (bl1 :: bl2 :: bl3 :: []), []) :=
            tryMatchLine_block_end hsm2 h2 h3 (by simp)
          refine ⟨?_, ?_, ?_⟩
          · rw [subL_cons_match_nil B htm2 (expandTemplate_of_noBS hBS)]
          · intro _
            rw [searchL_cons, htm2]
            rfl
          · intro _
            rw [hrest, firstTwoGt_cons, firstTwoGt_cons, hgtpre]
            rw [show ([bl2, bl3] : List (List Char)).head?.map startsGt =
              some true from by rw [show ([bl2, bl3] : List (List Char)).head? =
                some bl2 from rfl]; rw [Option.map_some', h2]]
            rw [show ((a :: b :: rest2).head?.map startsGt) = some true from by
              rw [show (a :: b :: rest2).head? = some a from rfl,
                Option.map_some', hga]]
        | cons r0 rem' =>
          subst hremc
          rw [subL_cons_match_cons B htm hexp] at hsub
          obtain ⟨out', hsub', hout⟩ := Option.map_eq_some'.mp hsub
          subst hout
          have hr0 : startsGt r0 = false := dropWhile_cons_head_false hrem.symm
          have hlen := tryMatchLine_rem_length htm
          obtain ⟨ih1, ih2, ih3⟩ := ih n' (by omega) (r0 :: rem')
            (by simp only [List.length_cons] at hn hlen ⊢; omega)
            (by
              intro x hx
              apply hnl
              rw [hrest]
              have hxrem : x ∈ rest2.dropWhile startsGt := by
                rw [hrem] at hx
                exact hx
              have hx2 : x ∈ rest2 := (List.dropWhile_sublist _).subset hxrem
              exact List.mem_cons_of_mem l (List.mem_cons_of_mem a
                (List.mem_cons_of_mem b hx2))) out' hsub'
          have hskel := ih3 (by simp)
          have hx0 : ∃ x ts, splitOnNl out' = x :: ts ∧ startsGt x = false := by
            have h1 : (splitOnNl out').head?.map startsGt =
                ((r0 :: rem').head?.map startsGt) := congrArg Prod.fst hskel
            rw [show (r0 :: rem').head? = some r0 from rfl, Option.map_some',
              hr0] at h1
            cases hso : splitOnNl out' with
            | nil => exact absurd hso (splitOnNl_ne_nil out')
            | cons x ts =>
              rw [hso] at h1
              simp only [List.head?_cons, Option.map_some',
                Option.some.injEq] at h1
              exact ⟨x, ts, rfl, h1⟩
          obtain ⟨x, ts, hso, hxgt⟩ := hx0
          have hsp : splitOnNl (pre ++ B ++ '\n' :: out') =
              (pre ++ bl1) :: bl2 :: bl3 :: (x :: ts) := by
            rw [splitOnNl_append_nl, splitOnNl_pre_block hB h1n h2n h3n hprenl,
              hso]
            rfl
          rw [hsp]
          have htm2 : tryMatchLine (pre ++ bl1) (bl2 :: bl3 :: ([] ++ x :: ts)) =
              some (pre, joinNl (bl1 :: bl2 :: bl3 :: []), x :: ts) :=
            tryMatchLine_block hsm2 h2 h3 (by simp) hxgt
          rw [List.nil_append] at htm2
          refine ⟨?_, ?_, ?_⟩
          · rw [subL_cons_match_cons B htm2 (expandTemplate_of_noBS hBS)]
            rw [← hso, ih1]
            rfl
          · intro _
            rw [searchL_cons, htm2]
            rfl
          · intro _
            rw [hrest, firstTwoGt_cons, firstTwoGt_cons, hgtpre]
            rw [show ((bl2 :: bl3 :: x :: ts).head?.map startsGt) = some true
              from by rw [show (bl2 :: bl3 :: x :: ts).head? = some bl2 from rfl,
                Option.map_some', h2]]
            rw [show ((a :: b :: rest2).head?.map startsGt) = some true from by
              rw [show (a :: b :: rest2).head? = some a from rfl,
                Option.map_some', hga]]

theorem noBS_cons {c : Char} {rest : List Char} (hc : c ≠ '\\')
    (h : noBS rest) : noBS (c :: rest) := by
  intro hx
  rcases List.mem_cons.mp hx with h1 | h1
  · exact hc h1.symm
  · exact h h1

theorem noBS_blockLine1 {t : Track} (hn : noBS t.name) (ha : noBS t.artist)
    (hb : noBS t.album) : noBS (blockLine1 t) := by
  unfold blockLine1
  exact noBS_append (noBS_append (noBS_append (noBS_append
    (noBS_append (noBS_append (by decide) hn) (by decide)) ha)
    (by decide)) hb) (by decide)

theorem noBS_blockLine3 {t : Track} {now : List Char} (hu : noBS t.url)
    (hw : noBS now) : noBS (blockLine3 t now) := by
  unfold blockLine3
  exact noBS_append (noBS_append (noBS_append (by decide) hu) (by decide)) hw

theorem noBS_block {t : Track} {now : List Char} (hn : noBS t.name)
    (ha : noBS t.artist) (hb : noBS t.album) (hu : noBS t.url)
    (hw : noBS now) : noBS (create_now_playing_block t now) := by
  unfold create_now_playing_block
  exact noBS_append (noBS_append (noBS_blockLine1 hn ha hb)
    (noBS_cons (by decide) (by decide)))
    (noBS_cons (by decide) (noBS_blockLine3 hu hw))

/-- C8 amended: applying the patch twice with the same rendered block
yields `changed=false` on the second application, provided the rendered
block is a clean template: track fields and timestamp free of newlines
and backslashes, and a nonempty timestamp with no trailing whitespace
(so that `new_block.strip()` is the block itself and the template
expands to itself).  The counterexample shows the backslash restriction
is necessary. -/
theorem c8_amended (content : List Char) (t : Track) (now : List Char)
    (hn : noNl t.name) (ha : noNl t.artist) (hal : noNl t.album)
    (hu : noNl t.url) (hw : noNl now)
    (hbn : noBS t.name) (hba : noBS t.artist) (hbal : noBS t.album)
    (hbu : noBS t.url) (hbw : noBS now)
    (hwne : now ≠ []) (hwr : rstripL now = now)
    (c2 : List Char)
    (h1 : update_content content (create_now_playing_block t now) = some c2) :
    update_content c2 (create_now_playing_block t now) = some c2 := by
  have h1n : noNl (blockLine1 t) := noNl_blockLine1 hn ha hal
  have h3n : noNl (blockLine3 t now) := noNl_blockLine3 hu hw
  have hBS : noBS (create_now_playing_block t now) := noBS_block hbn hba hbal hbu hbw
  have hstrip : stripL (create_now_playing_block t now) =
      create_now_playing_block t now := stripL_block hwne hwr
  have hmk : marker.isPrefixOf (blockLine1 t) = true := marker_prefix_blockLine1 t
  unfold update_content at h1
  cases hs : searchL (splitOnNl content) with
  | false =>
    rw [if_neg (by rw [hs]; simp)] at h1
    have hc2 : c2 = rstripL content ++ '\n' :: '\n' ::
        create_now_playing_block t now :=
      ((Option.some.injEq .. ▸ h1)).symm
    have hspc2 : splitOnNl c2 = splitOnNl (rstripL content) ++
        [[], blockLine1 t, blockLine2, blockLine3 t now] := by
      rw [hc2, splitOnNl_append_nl,
        show splitOnNl ('\n' :: create_now_playing_block t now) =
          [] :: splitOnNl (create_now_playing_block t now) from rfl,
        splitOnNl_block h1n h3n]
    have hsearch2 : searchL (splitOnNl c2) = true := by
      rw [hspc2]
      exact searchL_block_suffix _
    have hsrc : searchL (splitOnNl (rstripL content)) = false := by
      cases hx : searchL (splitOnNl (rstripL content)) with
      | false => rfl
      | true =>
        exfalso
        have h5 := searchL_extend ((content.reverse.takeWhile pyWs).reverse) hx
        rw [← rstripL_decomp content] at h5
        rw [h5] at hs
        exact Bool.noConfusion hs
    unfold update_content
    rw [if_pos (by rw [hsearch2])]
    rw [hstrip, hspc2]
    rw [show splitOnNl (rstripL content) ++
        [[], blockLine1 t, blockLine2, blockLine3 t now] =
      splitOnNl (rstripL content) ++
        [] :: [blockLine1 t, blockLine2, blockLine3 t now] from rfl]
    rw [subL_append_blank _ hsrc]
    rw [subL_blank_block hmk startsGt_blockLine2 (startsGt_blockLine3 t now)
      (expandTemplate_of_noBS hBS)]
    rw [hc2]
    have hlj : lineJoin (splitOnNl (rstripL content)) =
        rstripL content ++ ['\n'] := by
      rw [lineJoin_eq_joinNl (splitOnNl_ne_nil _), joinNl_splitOnNl]
    rw [show Option.map (fun o => lineJoin (splitOnNl (rstripL content)) ++ o)
        (some ('\n' :: create_now_playing_block t now)) =
      some (lineJoin (splitOnNl (rstripL content)) ++
        ('\n' :: create_now_playing_block t now)) from rfl]
    rw [hlj]
    simp [List.append_assoc]
  | true =>
    rw [if_pos (by rw [hs])] at h1
    rw [hstrip] at h1
    obtain ⟨k1, k2, -⟩ := subL_idem_aux (blockLine1 t) blockLine2
      (blockLine3 t now) (create_now_playing_block t now) rfl hmk
      startsGt_blockLine2 (startsGt_blockLine3 t now) h1n (by decide) h3n hBS
      (splitOnNl content).length (splitOnNl content) (le_refl _)
      (fun x hx => noNl_of_mem_splitOnNl hx) c2 h1
    unfold update_content
    rw [if_pos (by rw [k2 hs])]
    rw [hstrip]
    exact k1

/-- C8 amended witness: on a document with an existing block and a clean
rendered block, the first patch replaces the block and the second patch
returns its input unchanged. -/
theorem c8_amended_witness :
    (noNl w8_track.name ∧ noNl w8_track.artist ∧ noNl w8_track.album ∧
      noNl w8_track.url ∧ noNl w8_now ∧ noBS w8_track.name ∧
      noBS w8_track.artist ∧ noBS w8_track.album ∧ noBS w8_track.url ∧
      noBS w8_now ∧ w8_now ≠ [] ∧ rstripL w8_now = w8_now ∧
      update_content w8_doc (create_now_playing_block w8_track w8_now) =
        some w8_doc2) ∧
    update_content w8_doc2 (create_now_playing_block w8_track w8_now) =
      some w8_doc2 :=
  ⟨⟨by decide, by decide, by decide, by decide, by decide, by decide,
    by decide, by decide, by decide, by decide, by decide, by decide,
    by decide⟩,
   c8_amended w8_doc w8_track w8_now (by decide) (by decide) (by decide)
     (by decide) (by decide) (by decide) (by decide) (by decide) (by decide)
     (by decide) (by decide) (by decide) w8_doc2 (by decide)⟩
